import Mathlib

/-!
Verification development for the CSV anonymization scripts
(`anonymize_mentors.py` and `anonymize_portfolio.py`).

The Python code is shallowly embedded over `List Char` / `String`.
Regular-expression passes are translated into explicit scanners that
reproduce the leftmost, greedy-with-backtracking semantics of the
specific patterns used by the source (word boundaries `\b` are modelled
for the ASCII subset of `\w`, which covers all inputs evaluated here).
Randomness (`random.choice`, `random.randint`, `random.uniform`,
`random.shuffle`) is modelled by explicit oracle/sampler parameters.
Python `float` arithmetic is modelled by `ℚ`; `"%.1f"`/`"%.0f"`
formatting is modelled by exact rounding to the nearest tenth/unit with
ties to even, matching Python's formatting except for binary-double
representation error.
-/

set_option maxRecDepth 4096

namespace Anon

/-! ### Character helpers (ASCII model of Python `re` character classes) -/

/-- ASCII lower-case conversion (model of `str.lower` on the ASCII range). -/
def asciiLower (c : Char) : Char :=
  if 'A' ≤ c ∧ c ≤ 'Z' then Char.ofNat (c.toNat + 32) else c

/-- ASCII upper-case conversion (model of `str.upper` on the ASCII range). -/
def asciiUpper (c : Char) : Char :=
  if 'a' ≤ c ∧ c ≤ 'z' then Char.ofNat (c.toNat - 32) else c

def isUpperA (c : Char) : Bool := 'A' ≤ c && c ≤ 'Z'

def isLowerA (c : Char) : Bool := 'a' ≤ c && c ≤ 'z'

def isDigitA (c : Char) : Bool := '0' ≤ c && c ≤ '9'

def isAlphaA (c : Char) : Bool := isUpperA c || isLowerA c

/-- Model of the regex class `\w` on the ASCII range. -/
def isWordChar (c : Char) : Bool := isAlphaA c || isDigitA c || c = '_'

/-- Model of the regex class `\s` on the ASCII range. -/
def isPySpace (c : Char) : Bool :=
  c = ' ' || c = '\t' || c = '\n' || c = '\r' || c = '\x0b' || c = '\x0c'

def isWordOpt : Option Char → Bool
  | none => false
  | some c => isWordChar c

/-- Model of `\b` between an optional previous character and the current character. -/
def atBoundary (prev : Option Char) (c : Char) : Bool :=
  isWordOpt prev != isWordChar c

/-- Model of `\b` between the last matched character and the remaining text. -/
def afterBoundary (lastc : Char) (rest : List Char) : Bool :=
  isWordChar lastc != isWordOpt rest.head?

/-- Case-insensitive equality of ASCII characters. -/
def ciEq (a b : Char) : Bool := asciiLower a = asciiLower b

/-- Case-insensitive test that `pat` begins `t`. -/
def ciPre : List Char → List Char → Bool
  | [], _ => true
  | _ :: _, [] => false
  | p :: ps, c :: cs => ciEq p c && ciPre ps cs

/-- Case-sensitive test that `pat` begins `t`. -/
def litPre : List Char → List Char → Bool
  | [], _ => true
  | _ :: _, [] => false
  | p :: ps, c :: cs => (p = c) && litPre ps cs

/-- Test that `pat` occurs somewhere inside `l` (Python `in` on strings). -/
def containsSeq (pat : List Char) : List Char → Bool
  | [] => litPre pat []
  | c :: cs => litPre pat (c :: cs) || containsSeq pat cs

def lowerList (l : List Char) : List Char := l.map asciiLower

/-! ### Whole-word case-insensitive substitution

Model of `re.sub(r'\b' + re.escape(pat) + r'\b', rep, text, flags=re.IGNORECASE)`
for a non-empty literal `pat` that starts and ends with word characters
(true of every name and known entity substituted by the source).
Matching is performed against the original text, scanning left to right
and resuming after each match, exactly as `re.sub` does. -/

def subWordGo (pat rep : List Char) : Nat → Option Char → List Char → List Char
  | 0, _, _ => []
  | _ + 1, _, [] => []
  | fuel + 1, prev, c :: cs =>
    if pat ≠ [] && atBoundary prev c && ciPre pat (c :: cs) &&
        afterBoundary (pat.getLastD '_') (List.drop pat.length (c :: cs)) then
      rep ++ subWordGo pat rep fuel (some (pat.getLastD '_')) (List.drop pat.length (c :: cs))
    else
      c :: subWordGo pat rep fuel (some c) cs

def subWordCI (pat rep text : List Char) : List Char :=
  subWordGo pat rep text.length none text

/-! ### `anonymize_mentors.py`: name pools and `generate_random_name` -/

def HONORIFICS : List String := ["Dr.", "Prof.", "Mr.", "Ms.", "Mrs."]

/-- Region keys of `FIRST_NAMES`, in dict insertion order
(`list(FIRST_NAMES.keys())`). -/
def regionKeys : List String := ["us", "mexico", "china", "india"]

def FIRST_NAMES (region : String) : List String :=
  if region = "us" then
    ["Michael", "Jennifer", "Robert", "Sarah", "David", "Lisa", "James", "Emily", "John", "Amanda"]
  else if region = "mexico" then
    ["Carlos", "María", "José", "Gabriela", "Luis", "Ana", "Miguel", "Sofía", "Diego", "Isabella"]
  else if region = "china" then
    ["Wei", "Li", "Ming", "Yan", "Chen", "Hua", "Jun", "Xin", "Jian", "Mei"]
  else
    ["Raj", "Priya", "Amit", "Anjali", "Arjun", "Kavya", "Rohan", "Neha", "Vikram", "Sanya"]

def LAST_NAMES (region : String) : List String :=
  if region = "us" then
    ["Smith", "Johnson", "Williams", "Brown", "Jones", "Garcia", "Miller", "Davis", "Martinez", "Rodriguez"]
  else if region = "mexico" then
    ["García", "Rodríguez", "Martínez", "López", "González", "Hernández", "Pérez", "Sánchez", "Ramírez", "Torres"]
  else if region = "china" then
    ["Wang", "Li", "Zhang", "Liu", "Chen", "Yang", "Huang", "Zhao", "Wu", "Zhou"]
  else
    ["Sharma", "Patel", "Singh", "Kumar", "Reddy", "Gupta", "Mehta", "Rao", "Iyer", "Nair"]

/-- An oracle choice for one attempt of `generate_random_name`:
indices for `random.choice` over the region keys, first names and last
names.  Any triple of naturals denotes a possible draw (indices are
reduced modulo the pool sizes). -/
abbrev NameChoice := Nat × Nat × Nat

structure GenResult where
  first : String
  last : String
  full : String
  used : List String
  deriving Repr, DecidableEq

/-- The body of the retry loop of `generate_random_name`: attempt `k`
uses `oracle k`; at most `fuel` attempts remain.  The `used` set is
modelled as a list to which fresh names are consed (`used_names.add`). -/
def genAttempts (oracle : Nat → NameChoice) : Nat → Nat → List String → GenResult
  | 0, _, used =>
    -- Fallback if we somehow exhaust combinations (not inserted into `used`).
    let fb := "Person " ++ Nat.repr (used.length + 1)
    ⟨fb, "", fb, used⟩
  | fuel + 1, k, used =>
    let (ri, fi, li) := oracle k
    let region := regionKeys.getD (ri % regionKeys.length) "us"
    let first := (FIRST_NAMES region).getD (fi % (FIRST_NAMES region).length) ""
    let last := (LAST_NAMES region).getD (li % (LAST_NAMES region).length) ""
    let full := first ++ " " ++ last
    if full ∈ used then genAttempts oracle fuel (k + 1) used
    else ⟨first, last, full, full :: used⟩

/-- Model of `generate_random_name(used_names)` with `max_attempts = 1000`. -/
def generate_random_name (oracle : Nat → NameChoice) (used : List String) : GenResult :=
  genAttempts oracle 1000 0 used

/-! ### `anonymize_portfolio.py`: name pools and `generate_company_name` -/

def PREFIXES : List String :=
  ["Quantum", "Stellar", "Nexus", "Apex", "Vertex", "Synergy", "Fusion", "Pinnacle",
   "Nova", "Zenith", "Prime", "Atlas", "Titan", "Phoenix", "Orion", "Echo",
   "Pulse", "Spark", "Flux", "Prism", "Vortex", "Ember", "Horizon", "Catalyst",
   "Lumina", "Cipher", "Matrix", "Vector", "Helix", "Nexum", "Axiom", "Zenon"]

def SUFFIXES : List String :=
  ["Tech", "Labs", "Systems", "Solutions", "Dynamics", "Works", "Innovations",
   "Digital", "Analytics", "Networks", "Platform", "Data", "Cloud", "AI",
   "Robotics", "Energy", "Medical", "Health", "Finance", "Security", "Vision",
   "Media", "Logic", "Flow", "Core", "Hub", "Link", "Wave", "Pulse", "Sync"]

def STANDALONE_NAMES : List String :=
  ["Brightpath", "Clearview", "Swiftline", "Truepoint", "Mindshift", "Skyward",
   "Groundwork", "Firefly", "Blueprint", "Keystone", "Milestone", "Touchstone",
   "Cornerstone", "Redwood", "Bluestream", "Greenfield", "Whitespace", "Blackstone",
   "Silverlake", "Goldmine", "Irongate", "Steelbridge", "Copperleaf", "Platinum"]

structure CompanyResult where
  name : String
  used : List String
  deriving Repr, DecidableEq

/-- Retry loop of `generate_company_name`: the oracle gives
(style draw, first component draw, second component draw) per attempt. -/
def companyAttempts (oracle : Nat → NameChoice) : Nat → Nat → List String → CompanyResult
  | 0, _, used => ⟨"Company " ++ Nat.repr (used.length + 1), used⟩
  | fuel + 1, k, used =>
    let (si, ai, bi) := oracle k
    let name :=
      if si % 2 = 0 then
        PREFIXES.getD (ai % PREFIXES.length) "" ++ " " ++ SUFFIXES.getD (bi % SUFFIXES.length) ""
      else
        STANDALONE_NAMES.getD (ai % STANDALONE_NAMES.length) ""
    if name ∈ used then companyAttempts oracle fuel (k + 1) used
    else ⟨name, name :: used⟩

/-- Model of `generate_company_name(used_names)` with `max_attempts = 1000`. -/
def generate_company_name (oracle : Nat → NameChoice) (used : List String) : CompanyResult :=
  companyAttempts oracle 1000 0 used

/-! ### Python string helpers -/

/-- Remove a trailing run of characters satisfying `p`.  The result is a
prefix of the input. -/
def stripEndWhile (p : Char → Bool) : List Char → List Char
  | [] => []
  | c :: cs =>
    match stripEndWhile p cs with
    | [] => if p c then [] else [c]
    | r => c :: r

/-- Python `str.strip()` (whitespace from both ends). -/
def stripWs (l : List Char) : List Char :=
  stripEndWhile isPySpace (l.dropWhile isPySpace)

/-- Python `str.split()` (split on whitespace runs, dropping empties);
`cur` accumulates the current word reversed. -/
def splitWsGo (cur : List Char) : List Char → List (List Char)
  | [] => if cur = [] then [] else [cur.reverse]
  | c :: cs =>
    if isPySpace c then
      if cur = [] then splitWsGo [] cs else cur.reverse :: splitWsGo [] cs
    else
      splitWsGo (c :: cur) cs

def splitWs (l : List Char) : List (List Char) := splitWsGo [] l

/-- Python `' '.join(parts)`. -/
def joinSpace : List (List Char) → List Char
  | [] => []
  | [w] => w
  | w :: ws => w ++ ' ' :: joinSpace ws

/-- Model of `extract_honorific(name)`: strip, then test each honorific in order
with `startswith`; on a hit return it together with the stripped rest. -/
def extract_honorific (name : String) : Option String × String :=
  let n := stripWs name.data
  match HONORIFICS.find? (fun h => litPre h.data n) with
  | some h => (some h, ⟨stripWs (n.drop h.data.length)⟩)
  | none => (none, ⟨n⟩)

/-! ### `anonymize_bio`: the `known_entities` table

The Python dict literal lists `'Splunk'` twice with the same value; dict
insertion order keeps a single entry at its first position, so the
`items()` sequence below contains it once. -/

def techEntities : List String :=
  ["Google", "Facebook", "Meta",
   "Amazon", "Microsoft", "Apple",
   "Netflix", "Tesla", "IBM",
   "Oracle", "Salesforce", "Adobe",
   "Intel", "NVIDIA", "Cisco",
   "Twitter", "LinkedIn", "Uber",
   "Lyft", "Airbnb", "Stripe",
   "PayPal", "Square", "Snapchat",
   "Pinterest", "Reddit", "Zoom",
   "Slack", "Dropbox", "Box",
   "Spotify", "Shopify", "Atlassian",
   "ServiceNow", "Workday", "Zendesk",
   "HubSpot", "Twilio", "Okta",
   "Splunk", "Datadog", "Snowflake",
   "Palantir", "Cloudflare", "MongoDB",
   "Elastic", "Confluent", "HashiCorp",
   "GitLab", "GitHub", "Bitbucket",
   "Jira", "Confluence", "Asana",
   "Monday", "Notion", "Airtable",
   "Figma", "Canva", "Miro",
   "Tableau", "Looker", "Domo",
   "Qlik", "MicroStrategy", "SAS",
   "New Relic", "AppDynamics",
   "PagerDuty", "Opsgenie", "VictorOps",
   "Docker", "Kubernetes", "Jenkins",
   "CircleCI", "Travis", "Harness",
   "LaunchDarkly", "Optimizely", "Amplitude",
   "Mixpanel", "Segment", "Heap",
   "FullStory", "LogRocket", "Sentry",
   "Rollbar", "Bugsnag", "Honeybadger",
   "Nielsen", "Gartner", "Forrester",
   "VMware", "Dell", "HP",
   "Lenovo", "Asus", "Acer",
   "Samsung", "LG", "Sony",
   "Panasonic", "Toshiba", "Hitachi",
   "Fujitsu", "NEC", "Sharp",
   "Motorola", "Nokia", "Ericsson",
   "Alcatel", "Huawei", "ZTE",
   "Xiaomi", "Oppo", "Vivo",
   "OnePlus", "Realme", "Meizu",
   "Everfest", "uShip", "Matterport",
   "WastePlace", "ModuleMD", "CustomInk",
   "BuyWithMe", "FamilyID", "WeWork",
   "OpenDoor", "HotelTonight", "GoFundMe",
   "CrowdStrike", "AppZen", "MapMyFitness",
   "MapMyRun", "SunGard", "OrderMyGear",
   "ProsperOps", "RedBumper", "FeedMagnet",
   "EdSight", "ZeroBlock", "WestExec",
   "NovaCentrix", "MachineCore", "BuildGroup",
   "BreakingPoint", "ThermoAI", "SuperData",
   "Seeoloz", "NXP"]

def financialEntities : List String :=
  ["Goldman Sachs", "Morgan Stanley",
   "JPMorgan", "Citigroup",
   "Bank of America", "Wells Fargo",
   "Credit Suisse", "Deutsche Bank",
   "Barclays", "HSBC",
   "UBS", "Citi",
   "Chase", "Fidelity",
   "Vanguard", "BlackRock",
   "State Street", "Charles Schwab",
   "TD Ameritrade", "E-Trade",
   "Robinhood", "Coinbase",
   "Kraken", "Gemini",
   "Binance", "Bitfinex"]

def consultingEntities : List String :=
  ["McKinsey", "BCG",
   "Bain", "Deloitte",
   "PwC", "KPMG",
   "EY", "Accenture",
   "Booz Allen", "Oliver Wyman",
   "AT Kearney", "Roland Berger"]

def insuranceEntities : List String :=
  ["Aflac", "Allstate",
   "State Farm", "Geico",
   "Progressive", "Farmers",
   "Liberty Mutual", "Travelers",
   "Nationwide", "USAA",
   "MetLife", "Prudential",
   "AIG", "Chubb"]

/-- Model of `known_entities.items()` in insertion order. -/
def known_entities : List (String × String) :=
  techEntities.map (fun e => (e, "[Technology Company]")) ++
  financialEntities.map (fun e => (e, "[Financial Institution]")) ++
  consultingEntities.map (fun e => (e, "[Consulting Firm]")) ++
  insuranceEntities.map (fun e => (e, "[Insurance Company]"))

/-- The known-entity substitution loop: for each entry in order,
`re.sub(r'\b' + re.escape(entity) + r'\b', replacement, text, re.IGNORECASE)`. -/
def knownEntityPass (text : List Char) : List Char :=
  known_entities.foldl (fun t er => subWordCI er.1.data er.2.data t) text

/-! ### Shape-based passes

`\b<pattern>\b` over word tokens: a regex whose atoms only consume word
characters and which is bracketed by `\b` can only match a whole maximal
run of word characters, so the scanners below examine, at every position
that is a word boundary, the maximal word-character run starting there
(`re.sub` semantics: leftmost match, resume after each match). -/

/-- Generic scanner: at each `\b` position, offer the maximal word run to
`f`; on `some rep`, emit `rep` and resume after the run. -/
def runSubGo (f : List Char → Option (List Char)) :
    Nat → Option Char → List Char → List Char
  | 0, _, _ => []
  | _ + 1, _, [] => []
  | fuel + 1, prev, c :: cs =>
    if atBoundary prev c then
      let run := (c :: cs).takeWhile isWordChar
      match f run with
      | some rep =>
        rep ++ runSubGo f fuel (some (run.getLastD c)) (List.drop run.length (c :: cs))
      | none => c :: runSubGo f fuel (some c) cs
    else
      c :: runSubGo f fuel (some c) cs

def runSub (f : List Char → Option (List Char)) (text : List Char) : List Char :=
  runSubGo f text.length none text

/-- The language `(?:[A-Z][a-z]*)*` for the tail of a camel word
after the first two blocks: a letter sequence is a concatenation of
upper-started blocks iff it is empty or starts with an upper-case
letter and consists of letters only. -/
def camelTail : List Char → Bool
  | [] => true
  | c :: cs => isUpperA c && cs.all isAlphaA

def isCamelRun (run : List Char) : Bool :=
  match run with
  | c :: cs =>
    isUpperA c &&
    (let lows := cs.takeWhile isLowerA
     lows ≠ [] &&
     (match cs.drop lows.length with
      | [] => false
      | rest => camelTail rest))
  | [] => false

/-- Model of `replace_camel_case(match)`. -/
def replace_camel_case (entity : List Char) : List Char :=
  if entity ∈ ["PhD", "MBA", "CTO", "CEO", "CFO"].map String.data then entity
  else if entity ∈ ["Technology", "Company", "Financial", "Institution", "Consulting",
                    "Firm", "Insurance", "Investment", "Network", "University"].map String.data then
    entity
  else "[Technology Company]".data

/-- Model of `re.sub(camel_case_pattern, replace_camel_case, text)`: the pattern
matches exactly the maximal word runs that are all-letter camel-case
words. -/
def camelCasePass (text : List Char) : List Char :=
  runSub
    (fun run =>
      if run.all isAlphaA && isCamelRun run then some (replace_camel_case run) else none)
    text

/-- The acronym allow-list of `replace_acronym`. -/
def common_acronyms : List String :=
  ["MBA", "PhD", "CEO", "CFO", "CTO", "COO", "VP", "SVP", "EVP",
   "CPA", "CFA", "JD", "MD", "RN", "BS", "BA", "MS", "MA",
   "USA", "NYC", "IT", "AI", "ML", "API", "AWS", "SaaS", "BI",
   "SEO", "SQL", "NoSQL", "IoT", "R&D", "M&A", "HR", "PR",
   "STEM", "SBIR", "STTR", "NSF", "CBM", "ASA", "MAAA", "CRM",
   "AUM", "AVs", "HVAC", "DEC", "HRTech", "InsurTech", "AgTech",
   "MAU", "FTE"]

/-- Model of `replace_acronym(match)`. -/
def replace_acronym (entity : List Char) : List Char :=
  if entity ∈ common_acronyms.map String.data then entity
  else "[Technology Company]".data

/-- Model of `re.sub(r'\b[A-Z]{3,}\b', replace_acronym, text)`: matches exactly
the maximal word runs made of at least three upper-case letters. -/
def acronymPass (text : List Char) : List Char :=
  runSub
    (fun run =>
      if run.length ≥ 3 && run.all isUpperA then some (replace_acronym run) else none)
    text

/-! #### The multi-word pass

`\b(?:[A-Z][a-z]+\s+){1,4}(?:[A-Z][a-z]+|[A-Z]{2,})\b` with Python's
greedy backtracking: the repetition prefers more items, each item
`[A-Z][a-z]+\s+` can only match a whole maximal word run (a capitalised
lower-case word) followed by a whitespace run, and the final atom can
only match a whole maximal word run that is a capitalised word or an
all-caps run of length ≥ 2. -/

/-- A capitalised word (`[A-Z][a-z]+` filling its word run). -/
def isCapWordRun (run : List Char) : Bool :=
  match run with
  | c :: cs => cs ≠ [] && isUpperA c && cs.all isLowerA
  | [] => false

/-- One repetition item: capitalised word plus a nonempty whitespace
run; returns the consumed characters and the rest. -/
def capWordWs : List Char → Option (List Char × List Char)
  | t =>
    let run := t.takeWhile isWordChar
    if isCapWordRun run then
      let r1 := t.drop run.length
      let ws := r1.takeWhile isPySpace
      if ws ≠ [] then some (run ++ ws, r1.drop ws.length) else none
    else none

/-- The final atom `(?:[A-Z][a-z]+|[A-Z]{2,})\b`. -/
def finalWord : List Char → Option (List Char)
  | t =>
    let run := t.takeWhile isWordChar
    if isCapWordRun run || (run.length ≥ 2 && run.all isUpperA) then some run else none

/-- Model of `{0,fuel}` further repetition items followed by the final atom,
preferring more items (greedy `{1,4}` backtracking order). -/
def mwAfter : Nat → List Char → Option (List Char × List Char)
  | 0, t => (finalWord t).map (fun w => (w, t.drop w.length))
  | fuel + 1, t =>
    match capWordWs t with
    | some (c, r) =>
      match mwAfter fuel r with
      | some (c2, r2) => some (c ++ c2, r2)
      | none => (finalWord t).map (fun w => (w, t.drop w.length))
    | none => (finalWord t).map (fun w => (w, t.drop w.length))

/-- A full match of the multi-word pattern at the current position. -/
def mwMatch (t : List Char) : Option (List Char × List Char) :=
  match capWordWs t with
  | some (c, r) => (mwAfter 3 r).map (fun p => (c ++ p.1, p.2))
  | none => none

def mwStops : List String :=
  ["the", "a", "an", "in", "on", "at", "to", "for", "of", "and", "or", "but"]

/-- Model of `replace_multiword(match)`: skip phrases whose first or last word is
a stop word; otherwise classify by substring cues on the lowered form. -/
def replace_multiword (entity : List Char) : List Char :=
  let lower := lowerList entity
  let words := splitWs lower
  if (match words.head? with
      | some w => decide (w ∈ mwStops.map String.data)
      | none => false) ||
     (match words.getLast? with
      | some w => decide (w ∈ mwStops.map String.data)
      | none => false) then
    entity
  else if ["university", "college", "school", "institute"].any
      (fun w => containsSeq w.data lower) then
    "[University]".data
  else if ["bank", "financial", "capital", "ventures", "partners", "investment",
           "fund", "equity"].any (fun w => containsSeq w.data lower) then
    "[Financial Institution]".data
  else if ["consulting", "advisors", "advisory"].any (fun w => containsSeq w.data lower) then
    "[Consulting Firm]".data
  else if ["insurance", "life"].any (fun w => containsSeq w.data lower) then
    "[Insurance Company]".data
  else if containsSeq "angel".data lower && containsSeq "network".data lower then
    "[Investment Network]".data
  else
    "[Technology Company]".data

def multiwordGo : Nat → Option Char → List Char → List Char
  | 0, _, _ => []
  | _ + 1, _, [] => []
  | fuel + 1, prev, c :: cs =>
    if atBoundary prev c then
      match mwMatch (c :: cs) with
      | some (span, rest) =>
        replace_multiword span ++ multiwordGo fuel (some (span.getLastD c)) rest
      | none => c :: multiwordGo fuel (some c) cs
    else
      c :: multiwordGo fuel (some c) cs

/-- Model of `re.sub(multiword_pattern, replace_multiword, text)`. -/
def multiwordPass (text : List Char) : List Char :=
  multiwordGo text.length none text

/-! ### URL, e-mail and phone-number passes -/

def notSpaceComma (c : Char) : Bool := !isPySpace c && c ≠ ','

/-- Match `https?://[^\s,]+` at the current position (greedy `s?`,
greedy tail; both forced since shortening leaves a mismatch). -/
def urlMatchLen (t : List Char) : Option Nat :=
  let tryAt (pre : List Char) : Option Nat :=
    if litPre pre t then
      let run := (t.drop pre.length).takeWhile notSpaceComma
      if run ≠ [] then some (pre.length + run.length) else none
    else none
  match tryAt "https://".data with
  | some n => some n
  | none => tryAt "http://".data

def urlGo (matchLen : List Char → Option Nat) (rep : List Char) :
    Nat → List Char → List Char
  | 0, _ => []
  | _ + 1, [] => []
  | fuel + 1, c :: cs =>
    match matchLen (c :: cs) with
    | some n => rep ++ urlGo matchLen rep fuel (List.drop n (c :: cs))
    | none => c :: urlGo matchLen rep fuel cs

/-- Model of `re.sub(r'https?://[^\s,]+', '[website]', text)`. -/
def urlPass (text : List Char) : List Char :=
  urlGo urlMatchLen "[website]".data text.length text

/-- Match `www\.[^\s,]+` at the current position. -/
def wwwMatchLen (t : List Char) : Option Nat :=
  if litPre "www.".data t then
    let run := (t.drop 4).takeWhile notSpaceComma
    if run ≠ [] then some (4 + run.length) else none
  else none

/-- Model of `re.sub(r'www\.[^\s,]+', '[website]', text)`. -/
def wwwPass (text : List Char) : List Char :=
  urlGo wwwMatchLen "[website]".data text.length text

def isLocalChar (c : Char) : Bool :=
  isAlphaA c || isDigitA c || c = '.' || c = '_' || c = '%' || c = '+' || c = '-'

def isDomChar (c : Char) : Bool := isAlphaA c || isDigitA c || c = '.' || c = '-'

def isTldChar (c : Char) : Bool := isAlphaA c || c = '|'

/-- Longest `len ≥ 2` for which the first `len` characters of `tld` are
in the TLD class and `\b` holds after them (greedy `{2,}` with
backtracking on the trailing `\b`). -/
def tldLen (tld : List Char) : Option Nat :=
  let run := tld.takeWhile isTldChar
  let rec search : Nat → Option Nat
    | 0 => none
    | n + 1 =>
      if n + 1 ≥ 2 &&
          afterBoundary ((tld.take (n + 1)).getLastD '_') (tld.drop (n + 1)) then
        some (n + 1)
      else search n
  search run.length

/-- Match the domain part `[A-Za-z0-9.-]+\.[A-Z|a-z]{2,}\b` at the
current position: the greedy `+` yields dots from right to left. -/
def domainMatchLen (rest : List Char) : Option Nat :=
  let drun := rest.takeWhile isDomChar
  let rec tryDots : Nat → Option Nat
    | 0 => none
    | k + 1 =>
      -- candidate: domain = drun[0..k), dot at index k (needs k ≥ 1)
      if k ≥ 1 && drun.getD k '_' = '.' then
        match tldLen (rest.drop (k + 1)) with
        | some tl => some (k + 1 + tl)
        | none => tryDots k
      else tryDots k
  tryDots drun.length

/-- Match `\b[A-Za-z0-9._%+-]+@[A-Za-z0-9.-]+\.[A-Z|a-z]{2,}\b` at the
current position. -/
def emailMatchLen (prev : Option Char) (t : List Char) : Option Nat :=
  let lp := t.takeWhile isLocalChar
  if lp = [] then none
  else if !atBoundary prev (t.headD '_') then none
  else
    match t.drop lp.length with
    | '@' :: rest =>
      match domainMatchLen rest with
      | some d => some (lp.length + 1 + d)
      | none => none
    | _ => none

def emailGo : Nat → Option Char → List Char → List Char
  | 0, _, _ => []
  | _ + 1, _, [] => []
  | fuel + 1, prev, c :: cs =>
    match emailMatchLen prev (c :: cs) with
    | some n =>
      "[email]".data ++
        emailGo fuel (((c :: cs).take n).getLast? ) (List.drop n (c :: cs))
    | none => c :: emailGo fuel (some c) cs

/-- Model of `re.sub(email_pattern, '[email]', text)`. -/
def emailPass (text : List Char) : List Char :=
  emailGo text.length none text

/-- Take exactly `n` digits. -/
def takeDigits : Nat → List Char → Option (List Char)
  | 0, t => some t
  | _ + 1, [] => none
  | n + 1, c :: cs => if isDigitA c then takeDigits n cs else none

/-- Model of `[-.]?\d{n}` with greedy backtracking on the optional separator. -/
def optSepDigits (n : Nat) (t : List Char) : Option (Nat × List Char) :=
  match t with
  | c :: cs =>
    if c = '-' || c = '.' then
      match takeDigits n cs with
      | some r => some (n + 1, r)
      | none => (takeDigits n t).map (fun r => (n, r))
    else (takeDigits n t).map (fun r => (n, r))
  | [] => (takeDigits n t).map (fun r => (n, r))

/-- Match `\b\d{3}[-.]?\d{3}[-.]?\d{4}\b` at the current position. -/
def phone1MatchLen (prev : Option Char) (t : List Char) : Option Nat :=
  if !atBoundary prev (t.headD '_') then none
  else
    match takeDigits 3 t with
    | none => none
    | some r1 =>
      match optSepDigits 3 r1 with
      | none => none
      | some (n2, r2) =>
        match optSepDigits 4 r2 with
        | none => none
        | some (n3, r3) =>
          if afterBoundary '0' r3 then some (3 + n2 + n3) else none

/-- Match `\(\d{3}\)\s*\d{3}[-.]?\d{4}` at the current position. -/
def phone2MatchLen (t : List Char) : Option Nat :=
  match t with
  | '(' :: r0 =>
    match takeDigits 3 r0 with
    | none => none
    | some r1 =>
      match r1 with
      | ')' :: r2 =>
        let ws := r2.takeWhile isPySpace
        let r3 := r2.drop ws.length
        match takeDigits 3 r3 with
        | none => none
        | some r4 =>
          match optSepDigits 4 r4 with
          | none => none
          | some (n5, _) => some (1 + 3 + 1 + ws.length + 3 + n5)
      | _ => none
  | _ => none

def phoneGo (matcher : Option Char → List Char → Option Nat) (rep : List Char) :
    Nat → Option Char → List Char → List Char
  | 0, _, _ => []
  | _ + 1, _, [] => []
  | fuel + 1, prev, c :: cs =>
    match matcher prev (c :: cs) with
    | some n =>
      rep ++ phoneGo matcher rep fuel (((c :: cs).take n).getLast?) (List.drop n (c :: cs))
    | none => c :: phoneGo matcher rep fuel (some c) cs

/-- Model of `re.sub(r'\b\d{3}[-.]?\d{3}[-.]?\d{4}\b', '[phone]', text)`. -/
def phonePass1 (text : List Char) : List Char :=
  phoneGo phone1MatchLen "[phone]".data text.length none text

/-- Model of `re.sub(r'\(\d{3}\)\s*\d{3}[-.]?\d{4}', '[phone]', text)`. -/
def phonePass2 (text : List Char) : List Char :=
  phoneGo (fun _ t => phone2MatchLen t) "[phone]".data text.length none text

/-! ### `anonymize_bio` -/

/-- The name-replacement step of `anonymize_bio`: strip the honorific,
split the name, and substitute full / first / last name (two-part case)
or the single name (one-part case) with the new identity parts. -/
def nameReplacementPass (original_name new_first new_last new_full : String)
    (text : List Char) : List Char :=
  let nwh := (extract_honorific original_name).2
  let parts := splitWs nwh.data
  if parts.length ≥ 2 then
    let first := parts.headD []
    let last := joinSpace parts.tail
    let t1 := subWordCI nwh.data new_full.data text
    let t2 := subWordCI first new_first.data t1
    subWordCI last new_last.data t2
  else
    match parts with
    | [p] => subWordCI p new_full.data text
    | _ => text

/-- Model of `anonymize_bio(bio, original_name, new_first_name, new_last_name,
new_full_name)` for a nonempty bio: the ordered sequence of substitution
passes of the source. -/
def anonymize_bio (original_name new_first new_last new_full : String)
    (bio : String) : String :=
  ⟨phonePass2 (phonePass1 (emailPass (wwwPass (urlPass
    (multiwordPass (acronymPass (camelCasePass (knownEntityPass
      (nameReplacementPass original_name new_first new_last new_full bio.data)))))))))⟩

/-! ### CSV rows

A `csv.DictReader` row is an ordered field-name → string mapping,
modelled as an association list.  `row[k] = v` replaces the value at the
first occurrence of `k`, or appends the binding when `k` is absent. -/

abbrev Row := List (String × String)

def lookupVal (k : String) : Row → Option String
  | [] => none
  | (k', v) :: r => if k' = k then some v else lookupVal k r

def hasKey (k : String) (r : Row) : Bool := (lookupVal k r).isSome

def setKey (k v : String) : Row → Row
  | [] => [(k, v)]
  | (k', v') :: r => if k' = k then (k, v) :: r else (k', v') :: setKey k v r

/-! ### `anonymize_mentors.py`: `anonymize_csv` -/

/-- The per-row body of the loop in `anonymize_csv`. -/
def mentorsRow (oracle : Nat → NameChoice) (used : List String) (row : Row) :
    Row × List String :=
  let original_name := (lookupVal "Full Name" row).getD ""
  let he := extract_honorific original_name
  let g := generate_random_name oracle used
  let newName := match he.1 with
    | some h => h ++ " " ++ g.full
    | none => g.full
  let row1 := setKey "Full Name" newName row
  let row2 :=
    if hasKey "Bio" row then
      setKey "Bio"
        (anonymize_bio original_name g.first g.last g.full
          ((lookupVal "Bio" row).getD "")) row1
    else row1
  (row2, g.used)

def mentorsRows (oracle : Nat → Nat → NameChoice) : Nat → List String → List Row → List Row
  | _, _, [] => []
  | k, used, r :: rs =>
    let p := mentorsRow (oracle k) used r
    p.1 :: mentorsRows oracle (k + 1) p.2 rs

/-- Model of `anonymize_csv(input, output)` of `anonymize_mentors.py`, as a batch
transform on the header and the row list (the external CSV reader and
writer are out of scope); call `k` of the name generator draws from
`oracle k`. -/
def mentors_anonymize_csv (oracle : Nat → Nat → NameChoice)
    (fieldnames : List String) (rows : List Row) : List String × List Row :=
  (fieldnames, mentorsRows oracle 0 [] rows)

/-! ### `anonymize_portfolio.py`: `preserve_suffix` and the new-name format -/

/-- The suffix patterns of `preserve_suffix` and of the removal regex in
`normalize_to_slug`, in order; the flag records the optional `\.?`. -/
def suffixAlts : List (String × Bool) :=
  [("Inc", true), ("LLC", false), ("Ltd", true), ("Corp", true),
   ("Co", true), ("GmbH", false), ("PLC", false)]

/-- Model of `re.search(r'\b' + tok + r'\.?', name, re.IGNORECASE)`: leftmost
word-start case-insensitive occurrence of `tok`, greedily extended by a
dot; returns the matched slice of the original text (`match.group(0)`). -/
def searchPatGo (tok : List Char) (dot : Bool) :
    Nat → Option Char → List Char → Option (List Char)
  | 0, _, _ => none
  | _ + 1, _, [] => none
  | fuel + 1, prev, c :: cs =>
    if atBoundary prev c && ciPre tok (c :: cs) then
      let m := (c :: cs).take tok.length
      if dot && ((c :: cs).drop tok.length).headD '_' = '.' then some (m ++ ['.'])
      else some m
    else searchPatGo tok dot fuel (some c) cs

def searchPat (tok : String) (dot : Bool) (name : List Char) : Option (List Char) :=
  searchPatGo tok.data dot name.length none name

/-- Model of `preserve_suffix(original_name)`: the first pattern in order that
matches anywhere in the name. -/
def preserve_suffix (original_name : String) : Option String :=
  (suffixAlts.findSome? (fun td => searchPat td.1 td.2 original_name.data)).map
    (fun l => ⟨l⟩)

/-- Model of `f"{new_base_name}, {suffix}" if suffix else new_base_name`. -/
def mkNewName (base : String) (suffix : Option String) : String :=
  match suffix with
  | some s => base ++ ", " ++ s
  | none => base

/-! ### `normalize_to_slug` -/

/-- One alternative of `\b(Inc\.?|LLC|...)\b` at the current position:
greedy optional dot, backtracking to the dotless form when the trailing
`\b` fails. -/
def altMatchLen (t : List Char) (td : String × Bool) : Option Nat :=
  if ciPre td.1.data t then
    let n := td.1.data.length
    let rest := t.drop n
    if td.2 && rest.headD '_' = '.' && isWordOpt (rest.tail.head?) then
      some (n + 1)
    else if afterBoundary (td.1.data.getLastD '_') rest then some n
    else none
  else none

def removeCorpGo : Nat → Option Char → List Char → List Char
  | 0, _, _ => []
  | _ + 1, _, [] => []
  | fuel + 1, prev, c :: cs =>
    if atBoundary prev c then
      match suffixAlts.findSome? (altMatchLen (c :: cs)) with
      | some n =>
        removeCorpGo fuel (((c :: cs).take n).getLast?) (List.drop n (c :: cs))
      | none => c :: removeCorpGo fuel (some c) cs
    else c :: removeCorpGo fuel (some c) cs

/-- Model of `re.sub(r'\b(Inc\.?|LLC|Ltd\.?|Corp\.?|Co\.?|GmbH|PLC)\b', '', name,
flags=re.IGNORECASE)`. -/
def removeCorpSuffix (name : List Char) : List Char :=
  removeCorpGo name.length none name

/-- Keep exactly the characters the regex `[^a-z0-9\s-]` does not delete. -/
def filterAllowed (l : List Char) : List Char :=
  l.filter (fun c => isLowerA c || isDigitA c || isPySpace c || c = '-')

/-- Model of `re.sub(r'\s+', '-', slug)`: each maximal whitespace run becomes one
hyphen (`inRun` records whether the run's hyphen was already emitted). -/
def hyphenateSpaces : Bool → List Char → List Char
  | _, [] => []
  | inRun, c :: cs =>
    if isPySpace c then
      if inRun then hyphenateSpaces true cs else '-' :: hyphenateSpaces true cs
    else c :: hyphenateSpaces false cs

/-- Model of `re.sub(r'-+', '-', slug)`. -/
def collapseHyphens : Bool → List Char → List Char
  | _, [] => []
  | inRun, c :: cs =>
    if c = '-' then
      if inRun then collapseHyphens true cs else '-' :: collapseHyphens true cs
    else c :: collapseHyphens false cs

/-- Model of `slug.strip('-')`. -/
def stripHyphens (l : List Char) : List Char :=
  stripEndWhile (fun c => c = '-') (l.dropWhile (fun c => c = '-'))

/-- Model of `normalize_to_slug(name)`. -/
def normalize_to_slug (name : String) : String :=
  ⟨stripHyphens (collapseHyphens false (hyphenateSpaces false
    (filterAllowed (lowerList (removeCorpSuffix name.data)))))⟩

/-! ### `randomize_amount` -/

/-- Model of the optional suffix group
`([BMKTbmkt]|[Mm]illion|[Bb]illion|[Tt]rillion)?` under `re.IGNORECASE`
at the position following `\s*`: the alternation is ordered, so the
single-letter class is tried first; the class is modelled
case-insensitively (it lists both cases itself). -/
def captureSuffix : List Char → Option (List Char)
  | [] => none
  | c :: cs =>
    if asciiLower c = 'b' || asciiLower c = 'm' || asciiLower c = 'k' || asciiLower c = 't' then
      some [c]
    else if ciPre "million".data (c :: cs) then some ((c :: cs).take 7)
    else if ciPre "billion".data (c :: cs) then some ((c :: cs).take 7)
    else if ciPre "trillion".data (c :: cs) then some ((c :: cs).take 8)
    else none

/-- Model of one match of
`\$([0-9,]+(?:\.[0-9]+)?)\s*([BMKTbmkt]|[Mm]illion|[Bb]illion|[Tt]rillion)?`:
group 1, the whitespace consumed by `\s*`, and group 2.  Because the
group-2 alternation is ordered, a realizable group 2 is exactly what
`captureSuffix` returns at the position after the whitespace: `none` or
a single letter of the class `[BMKTbmkt]` — every spelled-out
alternative starts with a class letter and is therefore never captured
(see `claim_c4`); theorems instantiate matches accordingly. -/
structure AmountMatch where
  g1 : String
  ws : String
  g2 : Option String
  deriving Repr, DecidableEq

/-- Model of `match.group(0)`. -/
def amount_group0 (m : AmountMatch) : String :=
  "$" ++ m.g1 ++ m.ws ++ (m.g2.getD "")

def stripCommas (l : List Char) : List Char := l.filter (fun c => c ≠ ',')

def digitsVal : List Char → Option Nat
  | [] => some 0
  | c :: cs =>
    if isDigitA c then
      (digitsVal cs).map (fun v => (c.toNat - 48) * 10 ^ cs.length + v)
    else none

/-- Python `float(s)` on the comma-stripped group 1 (digits with at most
one dot): `None` models the `ValueError` caught by the bare `except`. -/
def pyFloat : List Char → Option ℚ
  | [] => none
  | l =>
    let ip := l.takeWhile (fun c => c ≠ '.')
    match l.drop ip.length with
    | [] => (digitsVal ip).map (fun n => (n : ℚ))
    | '.' :: fp =>
      if fp.contains '.' then none
      else
        match digitsVal ip, digitsVal fp with
        | some i, some f =>
          if ip = [] && fp = [] then none
          else some ((i : ℚ) + (f : ℚ) / 10 ^ fp.length)
        | _, _ => none
    | _ => none

/-- The suffix multiplier chain (`suffix.upper()` comparisons). -/
def multiplierOf (suffix : List Char) : ℚ :=
  let u := suffix.map asciiUpper
  if u = "K".data then 1000
  else if u = "M".data then 1000000
  else if u = "B".data then 1000000000
  else if u = "T".data || u = "TRILLION".data then 1000000000000
  else 1

/-- Round to the nearest integer, ties to even (the rounding of Python's
`format` on exact decimal values). -/
def roundTiesEven (q : ℚ) : ℤ :=
  let n := ⌊q⌋
  let r := q - n
  if r < 1 / 2 then n
  else if 1 / 2 < r then n + 1
  else if n % 2 = 0 then n else n + 1

/-- Model of `f"{q:.1f}"` for a nonnegative value. -/
def fmt1 (q : ℚ) : String :=
  let m := (roundTiesEven (10 * q)).natAbs
  Nat.repr (m / 10) ++ "." ++ Nat.repr (m % 10)

/-- Model of `f"{q:.0f}"` for a nonnegative value. -/
def fmt0 (q : ℚ) : String :=
  Nat.repr (roundTiesEven q).natAbs

/-- The suffix-threshold formatting chain of `replace_amount`. -/
def formatDollar (x : ℚ) : String :=
  if 1000000000000 ≤ x then "$" ++ fmt1 (x / 1000000000000) ++ "T"
  else if 1000000000 ≤ x then "$" ++ fmt1 (x / 1000000000) ++ "B"
  else if 1000000 ≤ x then "$" ++ fmt1 (x / 1000000) ++ "M"
  else if 1000 ≤ x then "$" ++ fmt1 (x / 1000) ++ "K"
  else "$" ++ fmt0 x

/-- Round to the nearest tenth (companion of `fmt1`). -/
def roundTenth (q : ℚ) : ℚ := (roundTiesEven (10 * q) : ℚ) / 10

/-- The numeric value denoted by `formatDollar x` (each branch of
`formatDollar` renders `roundTenth (x / s) * s`, resp. the rounded unit
value). -/
def renderedDollarValue (x : ℚ) : ℚ :=
  if 1000000000000 ≤ x then roundTenth (x / 1000000000000) * 1000000000000
  else if 1000000000 ≤ x then roundTenth (x / 1000000000) * 1000000000
  else if 1000000 ≤ x then roundTenth (x / 1000000) * 1000000
  else if 1000 ≤ x then roundTenth (x / 1000) * 1000
  else (roundTiesEven x : ℚ)

/-- Model of `replace_amount(match)` with the `random.uniform(0.67, 1.33)` draw
passed in as `factor`. -/
def replace_amount (m : AmountMatch) (factor : ℚ) : String :=
  match pyFloat (stripCommas m.g1.data) with
  | none => amount_group0 m
  | some a =>
    let amount := a * multiplierOf (m.g2.getD "").data
    let newAmount := amount * factor
    formatDollar newAmount

/-- The value the rendered replacement denotes (parse of the output). -/
def replace_amount_value (m : AmountMatch) (factor : ℚ) : Option ℚ :=
  match pyFloat (stripCommas m.g1.data) with
  | none => none
  | some a => some (renderedDollarValue (a * multiplierOf (m.g2.getD "").data * factor))

/-! ### `randomize_dates` -/

/-- Model of `replace_year(match)` with `random.randint` passed in as `sample`. -/
def replaceYearTok (sample : Nat → Nat → Nat) (year : Nat) : Nat :=
  if 2000 ≤ year ∧ year ≤ 2025 then
    let min_year := max 2010 (year - 5)
    let max_year := min 2025 (year + 5)
    let p := if min_year > max_year then (max_year, min_year) else (min_year, max_year)
    sample p.1 p.2
  else year

def natOfDigits (l : List Char) : Nat :=
  l.foldl (fun a c => a * 10 + (c.toNat - 48)) 0

/-- Model of `re.sub(r'\b(20\d{2})\b', replace_year, text)`: the pattern matches
exactly the maximal word runs that are four digits starting `20`. -/
def randomize_dates (sample : Nat → Nat → Nat) (text : String) : String :=
  ⟨runSub
    (fun run =>
      if run.length = 4 && run.all isDigitA && litPre "20".data run then
        some (Nat.repr (replaceYearTok sample (natOfDigits run))).data
      else none)
    text.data⟩

/-! ### `should_anonymize_word` -/

def common_words : List String :=
  ["A", "An", "The", "In", "On", "At", "To", "For", "Of", "And", "Or", "But", "As",
   "By", "With", "From", "About", "Into", "Through", "During", "Before", "After",
   "Above", "Below", "Up", "Down", "Out", "Off", "Over", "Under", "Again", "Further",
   "Then", "Once", "Here", "There", "When", "Where", "Why", "How", "All", "Both",
   "Each", "Few", "More", "Most", "Other", "Some", "Such", "No", "Nor", "Not", "Only",
   "Own", "Same", "So", "Than", "Too", "Very", "Can", "Will", "Just", "Should", "Now",
   "Our", "We", "They", "He", "She", "It", "I", "You", "Your", "Their", "His", "Her",
   "Its", "My", "This", "That", "These", "Those", "What", "Which", "Who", "Whom",
   "CEO", "CTO", "CFO", "COO", "VP", "Director", "Manager", "President", "Chief",
   "Senior", "Junior", "Lead", "Head", "Executive", "Officer", "Team", "Company",
   "Business", "Product", "Service", "Platform", "Technology", "Software", "Hardware",
   "System", "Solution", "Tool", "Application", "App", "Website", "Site", "Network",
   "Digital", "Online", "Mobile", "Cloud", "Data", "AI", "ML", "Analytics",
   "API", "SDK", "SaaS", "PaaS", "IaaS", "IoT", "VR", "AR", "XR", "B2B", "B2C",
   "B2G", "SEO", "SEM", "CRM", "ERP", "CMS", "SQL", "NoSQL", "AWS", "Azure", "GCP",
   "Austin", "Dallas", "Houston", "Texas", "California", "York", "America", "US",
   "USA", "United", "States", "San", "Francisco", "Los", "Angeles", "Seattle",
   "Boston", "Chicago", "Denver", "Atlanta", "Miami", "Phoenix", "Portland",
   "First", "Last", "Next", "New", "Old", "Good", "Better", "Best", "Great",
   "Leading", "Top", "World", "Global", "International", "National", "Local",
   "Enterprise", "Consumer", "Commercial", "Industrial", "Professional",
   "Advanced", "Modern", "Smart", "Innovative", "Revolutionary", "Cutting",
   "Edge", "State", "Art", "Industry", "Market", "Sector", "Space", "Field",
   "Area", "Domain", "Vertical", "Horizontal", "End", "User", "Customer",
   "Client", "Partner", "Vendor", "Provider", "Supplier", "Developer",
   "Year", "Years", "Month", "Months", "Day", "Days", "Week", "Weeks",
   "January", "February", "March", "April", "May", "June", "July",
   "August", "September", "October", "November", "December",
   "Monday", "Tuesday", "Wednesday", "Thursday", "Friday", "Saturday", "Sunday",
   "Dr", "Mr", "Ms", "Mrs", "Prof", "Inc", "LLC", "Ltd", "Corp", "Co"]

def sentence_starters : List String :=
  ["Following", "Often", "Despite", "Instead", "Thus", "Based", "Additionally",
   "However", "Therefore", "Furthermore", "Moreover", "Meanwhile", "Currently",
   "Recently", "Finally", "Initially", "Generally", "Typically", "Essentially",
   "Specifically", "Particularly", "Notably", "Importantly", "Fortunately",
   "Unfortunately", "Existing", "Since", "While", "Although", "Because",
   "Through", "During", "After", "Before", "Within", "Without", "Beyond",
   "Americans", "People", "Users", "Customers", "Clients", "Companies",
   "Businesses", "Organizations", "Individuals", "Teams", "Members",
   "Force", "Navy", "Army", "Marines", "Coast", "Guard", "Founded"]

/-- Model of `re.match(r'^[A-Z][a-z]*[A-Z]', word)` (an unanchored-end prefix
test). -/
def camelPreTest (l : List Char) : Bool :=
  match l with
  | a :: rest =>
    isUpperA a &&
    (match rest.dropWhile isLowerA with
     | b :: _ => isUpperA b
     | [] => false)
  | [] => false

/-- Model of `should_anonymize_word(word)`. -/
def should_anonymize_word (word : String) : Bool :=
  if word ∈ common_words then false
  else if word.data ≠ [] && word.data.all isDigitA then false
  else if word.data.length ≤ 2 then false
  else if !isUpperA (word.data.headD '_') then false
  else if camelPreTest word.data then true
  else if isCapWordRun word.data && word.data.length ≥ 4 then
    if word ∈ sentence_starters then false else true
  else false

/-! ### The distribution-preserving column reassignment -/

/-- First pass of `anonymize_csv`: collect the truthy values of one
column (`if row.get(col): values.append(row[col])`). -/
def collectColumn (col : String) : List Row → List String
  | [] => []
  | r :: rs =>
    match lookupVal col r with
    | some v => if v ≠ "" then v :: collectColumn col rs else collectColumn col rs
    | none => collectColumn col rs

/-- Second pass for one column: `if col in row and vals and i < len(vals):
row[col] = vals[i]; i += 1`, applied to each row in order. -/
def assignColumn (col : String) (vals : List String) : Nat → List Row → List Row
  | _, [] => []
  | i, r :: rs =>
    if hasKey col r ∧ vals ≠ [] ∧ i < vals.length then
      setKey col (vals.getD i "") r :: assignColumn col vals (i + 1) rs
    else r :: assignColumn col vals i rs

/-! ### Spec-side notion for claim C7 -/

def endsSeq (pat l : List Char) : Bool := litPre pat.reverse l.reverse

def corpSuffixForms : List String :=
  ["Inc", "Inc.", "LLC", "Ltd", "Ltd.", "Corp", "Corp.", "Co", "Co.", "GmbH", "PLC"]

/-- Modelled from the spec: "detects a trailing corporate suffix (Inc.,
LLC, Ltd., Corp., Co., GmbH, PLC) in the original name" — the name ends
(case-insensitively) with one of the suffix tokens, as a whole trailing
token. -/
def specTrailingCorpSuffix (name : String) : Bool :=
  corpSuffixForms.any (fun s =>
    let n := lowerList name.data
    let p := lowerList s.data
    endsSeq p n &&
      (n.length = p.length || !isWordChar (n.getD (n.length - p.length - 1) ' ')))

/-! ### Slug well-formedness (the property claimed of `normalize_to_slug`) -/

def isSlugChar (c : Char) : Bool := isLowerA c || isDigitA c || c = '-'

/-- No two consecutive hyphens. -/
def noDoubleHyphen : List Char → Bool
  | [] => true
  | [_] => true
  | a :: b :: t => !(a = '-' && b = '-') && noDoubleHyphen (b :: t)

/-- Only lowercase ASCII letters, digits and hyphens; no two consecutive
hyphens; no leading or trailing hyphen. -/
def slugOk (l : List Char) : Bool :=
  l.all isSlugChar && noDoubleHyphen l &&
  (l.head? != some '-') && (l.getLast? != some '-')

/-! ## Helper lemmas -/

theorem roundTiesEven_intCast (n : ℤ) : roundTiesEven (n : ℚ) = n := by
  simp [roundTiesEven]

theorem filter_eq_nil_of_all_comma (l : List Char) (h : ∀ c ∈ l, c = ',') :
    stripCommas l = [] := by
  simp only [stripCommas, List.filter_eq_nil_iff]
  intro c hc
  simp [h c hc]

/-! ## Claim theorems -/

/-- C5: every 4-digit token beginning "20" with value in [2000, 2025] is
remapped to a sampled year within the window
[max 2010 (y-5), min 2025 (y+5)], the bounds swapped if inverted; year
tokens outside [2000, 2025] are left untouched; year 2024 maps into
[2019, 2025]; the text "1999" is unchanged by the date pass. -/
theorem claim_c5 (sample : Nat → Nat → Nat)
    (hs : ∀ a b, a ≤ b → a ≤ sample a b ∧ sample a b ≤ b) :
    (∀ y, 2000 ≤ y → y ≤ 2025 →
      min (max 2010 (y - 5)) (min 2025 (y + 5)) ≤ replaceYearTok sample y ∧
      replaceYearTok sample y ≤ max (max 2010 (y - 5)) (min 2025 (y + 5))) ∧
    (∀ y, y < 2000 ∨ 2025 < y → replaceYearTok sample y = y) ∧
    (2019 ≤ replaceYearTok sample 2024 ∧ replaceYearTok sample 2024 ≤ 2025) ∧
    randomize_dates sample "1999" = "1999" := by
  have key : ∀ y, 2000 ≤ y → y ≤ 2025 →
      min (max 2010 (y - 5)) (min 2025 (y + 5)) ≤ replaceYearTok sample y ∧
      replaceYearTok sample y ≤ max (max 2010 (y - 5)) (min 2025 (y + 5)) := by
    intro y h1 h2
    unfold replaceYearTok
    rw [if_pos ⟨h1, h2⟩]
    by_cases hc : max 2010 (y - 5) > min 2025 (y + 5)
    · simp only [hc, if_pos]
      have hle : min 2025 (y + 5) ≤ max 2010 (y - 5) := Nat.le_of_lt hc
      have h := hs _ _ hle
      constructor
      · calc min (max 2010 (y - 5)) (min 2025 (y + 5)) ≤ min 2025 (y + 5) :=
              Nat.min_le_right _ _
          _ ≤ sample (min 2025 (y + 5)) (max 2010 (y - 5)) := h.1
      · calc sample (min 2025 (y + 5)) (max 2010 (y - 5)) ≤ max 2010 (y - 5) := h.2
          _ ≤ max (max 2010 (y - 5)) (min 2025 (y + 5)) := Nat.le_max_left _ _
    · simp only [hc, if_neg, if_false]
      have hle : max 2010 (y - 5) ≤ min 2025 (y + 5) := Nat.le_of_not_lt hc
      have h := hs _ _ hle
      constructor
      · calc min (max 2010 (y - 5)) (min 2025 (y + 5)) ≤ max 2010 (y - 5) :=
              Nat.min_le_left _ _
          _ ≤ sample (max 2010 (y - 5)) (min 2025 (y + 5)) := h.1
      · calc sample (max 2010 (y - 5)) (min 2025 (y + 5)) ≤ min 2025 (y + 5) := h.2
          _ ≤ max (max 2010 (y - 5)) (min 2025 (y + 5)) := Nat.le_max_right _ _
  refine ⟨key, ?_, ?_, ?_⟩
  · intro y hy
    unfold replaceYearTok
    rw [if_neg]
    rintro ⟨ha, hb⟩
    rcases hy with h | h
    · exact absurd ha (Nat.not_le_of_lt h)
    · exact absurd hb (Nat.not_le_of_lt h)
  · have h := key 2024 (by norm_num) (by norm_num)
    norm_num at h
    exact h
  · rfl

/-- C5 witness: instantiating the sampler with the lower bound,
year 2024 lands in [2019, 2025]. -/
theorem claim_c5_witness :
    2019 ≤ replaceYearTok (fun a _ => a) 2024 ∧
    replaceYearTok (fun a _ => a) 2024 ≤ 2025 :=
  (claim_c5 (fun a _ => a) (fun a _ h => ⟨Nat.le_refl a, h⟩)).2.2.1

/-- C8: when the numeric part of a matched dollar amount fails to parse
(`float` raises, i.e. the comma-stripped group is empty), the matched
substring is returned exactly unchanged; the replacement function is
total, so no error escapes. -/
theorem claim_c8 (m : AmountMatch) (factor : ℚ)
    (h : ∀ c ∈ m.g1.data, c = ',') :
    replace_amount m factor = amount_group0 m := by
  unfold replace_amount
  rw [filter_eq_nil_of_all_comma m.g1.data h]
  rfl

/-- C8 witness: the match "$," (group 1 = ",") is returned unchanged. -/
theorem claim_c8_witness :
    replace_amount ⟨",", "", none⟩ (7 / 10) = amount_group0 ⟨",", "", none⟩ :=
  claim_c8 ⟨",", "", none⟩ (7 / 10) (by decide)

theorem roundTiesEven_le {q : ℚ} {k : ℤ} (h : q < (k : ℚ) + 1 / 2) :
    roundTiesEven q ≤ k := by
  have hfl : (⌊q⌋ : ℚ) ≤ q := Int.floor_le q
  have hk : ⌊q⌋ ≤ k := by
    have h3 : (⌊q⌋ : ℚ) < ((k + 1 : ℤ) : ℚ) := by push_cast; linarith
    have h4 : ⌊q⌋ < k + 1 := by exact_mod_cast h3
    omega
  simp only [roundTiesEven]
  by_cases h1 : q - ⌊q⌋ < 1 / 2
  · rw [if_pos h1]; exact hk
  · rw [if_neg h1]
    have hge : (1 : ℚ) / 2 ≤ q - ⌊q⌋ := le_of_not_lt h1
    have hklt : ⌊q⌋ < k := by
      rcases lt_or_eq_of_le hk with hlt | heq
      · exact hlt
      · exfalso; rw [heq] at hge; linarith
    by_cases h2 : 1 / 2 < q - ⌊q⌋
    · rw [if_pos h2]; omega
    · rw [if_neg h2]
      by_cases h3 : ⌊q⌋ % 2 = 0
      · rw [if_pos h3]; exact hk
      · rw [if_neg h3]; omega

theorem le_roundTiesEven {q : ℚ} {k : ℤ} (h : (k : ℚ) - 1 / 2 < q) :
    k ≤ roundTiesEven q := by
  have hfl : q < (⌊q⌋ : ℚ) + 1 := Int.lt_floor_add_one q
  have hk1 : k ≤ ⌊q⌋ + 1 := by
    have h3 : (k : ℚ) < ((⌊q⌋ + 2 : ℤ) : ℚ) := by push_cast; linarith
    have h4 : k < ⌊q⌋ + 2 := by exact_mod_cast h3
    omega
  simp only [roundTiesEven]
  by_cases h1 : q - ⌊q⌋ < 1 / 2
  · rw [if_pos h1]
    have h3 : (k : ℚ) < ((⌊q⌋ + 1 : ℤ) : ℚ) := by push_cast; linarith
    have h4 : k < ⌊q⌋ + 1 := by exact_mod_cast h3
    omega
  · rw [if_neg h1]
    by_cases h2 : 1 / 2 < q - ⌊q⌋
    · rw [if_pos h2]; exact hk1
    · rw [if_neg h2]
      have heq : q - ⌊q⌋ = 1 / 2 := le_antisymm (le_of_not_lt h2) (le_of_not_lt h1)
      have h3 : (k : ℚ) < ((⌊q⌋ + 1 : ℤ) : ℚ) := by push_cast; linarith
      have h4 : k < ⌊q⌋ + 1 := by exact_mod_cast h3
      by_cases h5 : ⌊q⌋ % 2 = 0
      · rw [if_pos h5]; omega
      · rw [if_neg h5]; omega

theorem renderedDollarValue_million_bound {f : ℚ} (h1 : 67 / 100 ≤ f)
    (h2 : f ≤ 133 / 100) :
    670000 ≤ renderedDollarValue (1000000 * f) ∧
    renderedDollarValue (1000000 * f) ≤ 1330000 := by
  have hx1 : (670000 : ℚ) ≤ 1000000 * f := by linarith
  have hx2 : (1000000 : ℚ) * f ≤ 1330000 := by linarith
  unfold renderedDollarValue
  rw [if_neg (by linarith), if_neg (by linarith)]
  by_cases hM : (1000000 : ℚ) ≤ 1000000 * f
  · rw [if_pos hM]
    have hdiv : (1000000 : ℚ) * f / 1000000 = f := by field_simp
    rw [hdiv]
    unfold roundTenth
    have hf1 : (1 : ℚ) ≤ f := by linarith
    have hub : roundTiesEven (10 * f) ≤ 13 :=
      roundTiesEven_le (k := 13) (by push_cast; linarith)
    have hlb : (10 : ℤ) ≤ roundTiesEven (10 * f) :=
      le_roundTiesEven (k := 10) (by push_cast; linarith)
    have hubq : (roundTiesEven (10 * f) : ℚ) ≤ 13 := by exact_mod_cast hub
    have hlbq : (10 : ℚ) ≤ (roundTiesEven (10 * f) : ℚ) := by exact_mod_cast hlb
    have hval : (roundTiesEven (10 * f) : ℚ) / 10 * 1000000 =
        (roundTiesEven (10 * f) : ℚ) * 100000 := by ring
    rw [hval]
    constructor <;> linarith
  · rw [if_neg hM, if_pos (show (1000 : ℚ) ≤ 1000000 * f by linarith)]
    have hdiv : (1000000 : ℚ) * f / 1000 = 1000 * f := by ring
    rw [hdiv]
    unfold roundTenth
    have heq : (10 : ℚ) * (1000 * f) = 10000 * f := by ring
    rw [heq]
    have hflt : f < 1 := by nlinarith
    have hub : roundTiesEven (10000 * f) ≤ 10000 :=
      roundTiesEven_le (k := 10000) (by push_cast; linarith)
    have hlb : (6700 : ℤ) ≤ roundTiesEven (10000 * f) :=
      le_roundTiesEven (k := 6700) (by push_cast; linarith)
    have hubq : (roundTiesEven (10000 * f) : ℚ) ≤ 10000 := by exact_mod_cast hub
    have hlbq : (6700 : ℚ) ≤ (roundTiesEven (10000 * f) : ℚ) := by exact_mod_cast hlb
    have hval : (roundTiesEven (10000 * f) : ℚ) / 10 * 1000 =
        (roundTiesEven (10000 * f) : ℚ) * 100 := by ring
    rw [hval]
    constructor <;> linarith

/-- C4: the ordered group-2 alternation captures a single letter of
`[BMKTbmkt]` whenever a suffix is present (the spelled-out alternatives
all start with a class letter, so they are never reached — on
"$5 million" group 2 is "m", the multiplier is 10^6 and the matched span
"$5 m" is rewritten to "$5.0M"); the parsed base value is multiplied by
the sampled factor and re-rendered with the largest suffix whose
threshold the new magnitude clears, one decimal place for suffixed
forms; in particular, for the match on "$1,000,000" and every factor in
[0.67, 1.33], the output denotes a value in [670000, 1330000]. -/
theorem claim_c4 :
    (∀ t s, captureSuffix t = some s →
      ∃ c, s = [c] ∧
        (asciiLower c = 'b' ∨ asciiLower c = 'm' ∨ asciiLower c = 'k' ∨
          asciiLower c = 't')) ∧
    (∀ f : ℚ, 67 / 100 ≤ f → f ≤ 133 / 100 →
      ∃ v, replace_amount_value ⟨"1,000,000", "", none⟩ f = some v ∧
        670000 ≤ v ∧ v ≤ 1330000) ∧
    replace_amount ⟨"5", " ", some "m"⟩ 1 = "$5.0M" ∧
    multiplierOf "m".data = 1000000 := by
  have hm : multiplierOf "m".data = 1000000 := rfl
  refine ⟨?_, ?_, ?_, hm⟩
  · intro t s h
    cases t with
    | nil => simp [captureSuffix] at h
    | cons c cs =>
      rw [captureSuffix] at h
      by_cases h1 : (asciiLower c = 'b' || asciiLower c = 'm' ||
          asciiLower c = 'k' || asciiLower c = 't') = true
      · rw [if_pos h1] at h
        refine ⟨c, (Option.some.injEq _ _ ▸ h).symm, ?_⟩
        simp only [Bool.or_eq_true, decide_eq_true_eq] at h1
        tauto
      · rw [if_neg h1] at h
        exfalso
        apply h1
        by_cases h2 : ciPre "million".data (c :: cs) = true
        · have : asciiLower c = 'm' := by
            have := (Bool.and_eq_true _ _ |>.mp h2).1
            simp only [ciEq, decide_eq_true_eq] at this
            exact this.symm
          simp [this]
        · rw [if_neg h2] at h
          by_cases h3 : ciPre "billion".data (c :: cs) = true
          · have : asciiLower c = 'b' := by
              have := (Bool.and_eq_true _ _ |>.mp h3).1
              simp only [ciEq, decide_eq_true_eq] at this
              exact this.symm
            simp [this]
          · rw [if_neg h3] at h
            by_cases h4 : ciPre "trillion".data (c :: cs) = true
            · have : asciiLower c = 't' := by
                have := (Bool.and_eq_true _ _ |>.mp h4).1
                simp only [ciEq, decide_eq_true_eq] at this
                exact this.symm
              simp [this]
            · rw [if_neg h4] at h
              simp at h
  · intro f h1 h2
    have hval : replace_amount_value ⟨"1,000,000", "", none⟩ f =
        some (renderedDollarValue (((1000000 : ℕ) : ℚ) * 1 * f)) := rfl
    have hcast : ((1000000 : ℕ) : ℚ) * 1 * f = 1000000 * f := by push_cast; ring
    rw [hval, hcast]
    exact ⟨renderedDollarValue (1000000 * f), rfl,
      (renderedDollarValue_million_bound h1 h2).1,
      (renderedDollarValue_million_bound h1 h2).2⟩
  · have hp : pyFloat (stripCommas ("5" : String).data) = some ((5 : ℕ) : ℚ) := rfl
    have hv : ((5 : ℕ) : ℚ) * multiplierOf (((some "m").getD "" : String)).data * 1 =
        5000000 := by
      simp only [Option.getD_some]; rw [hm]; norm_num
    show replace_amount ⟨"5", " ", some "m"⟩ 1 = "$5.0M"
    unfold replace_amount
    rw [hp]
    show formatDollar
        (((5 : ℕ) : ℚ) * multiplierOf (((some "m").getD "" : String)).data * 1) = "$5.0M"
    rw [hv]
    unfold formatDollar
    rw [if_neg (by norm_num), if_neg (by norm_num), if_pos (by norm_num)]
    have hdiv : (5000000 : ℚ) / 1000000 = 5 := by norm_num
    rw [hdiv]
    unfold fmt1
    have h50 : roundTiesEven (10 * (5 : ℚ)) = 50 := by
      rw [show (10 : ℚ) * 5 = ((50 : ℤ) : ℚ) by norm_num, roundTiesEven_intCast]
    rw [h50]
    rfl

/-- C4 witness: at factor 1 the "$1,000,000" match renders to a value
inside [670000, 1330000]. -/
theorem claim_c4_witness :
    ∃ v, replace_amount_value ⟨"1,000,000", "", none⟩ 1 = some v ∧
      670000 ≤ v ∧ v ≤ 1330000 :=
  claim_c4.2.1 1 (by norm_num) (by norm_num)

theorem ciPre_lower {pat : List Char} :
    ∀ {t : List Char}, ciPre pat t = true →
      lowerList (t.take pat.length) = lowerList pat := by
  induction pat with
  | nil => intro t _; rfl
  | cons p ps ih =>
    intro t h
    cases t with
    | nil => simp [ciPre] at h
    | cons c cs =>
      simp only [ciPre, Bool.and_eq_true] at h
      have hc : asciiLower c = asciiLower p := by
        have := h.1
        simp only [ciEq, decide_eq_true_eq] at this
        exact this.symm
      simp only [List.length_cons, List.take_succ_cons, lowerList, List.map_cons]
      exact congrArg₂ List.cons hc (ih h.2)

theorem searchPatGo_lower {tok : List Char} {dot : Bool} :
    ∀ {fuel : Nat} {prev : Option Char} {t s : List Char},
      searchPatGo tok dot fuel prev t = some s →
      lowerList s = lowerList tok ∨ lowerList s = lowerList tok ++ ['.'] := by
  intro fuel
  induction fuel with
  | zero => intro _ _ _ h; simp [searchPatGo] at h
  | succ n ih =>
    intro prev t s h
    cases t with
    | nil => simp [searchPatGo] at h
    | cons c cs =>
      by_cases hcond : (atBoundary prev c && ciPre tok (c :: cs)) = true
      · rw [searchPatGo, if_pos hcond] at h
        have hci : ciPre tok (c :: cs) = true := (Bool.and_eq_true _ _ |>.mp hcond).2
        have hlow := ciPre_lower (t := c :: cs) hci
        by_cases hdot :
            (dot && (((c :: cs).drop tok.length).headD '_' = '.' : Bool)) = true
        · rw [if_pos hdot] at h
          right
          have : s = (c :: cs).take tok.length ++ ['.'] := (Option.some.injEq _ _ ▸ h).symm
          rw [this]
          simp only [lowerList, List.map_append, List.map_cons, List.map_nil]
          rw [show List.map asciiLower ((c :: cs).take tok.length) = lowerList tok from hlow]
          rfl
        · rw [if_neg hdot] at h
          left
          have : s = (c :: cs).take tok.length := (Option.some.injEq _ _ ▸ h).symm
          rw [this]
          exact hlow
      · rw [searchPatGo, if_neg hcond] at h
        exact ih h

/-- C7 (amended): `preserve_suffix` returns the first pattern in the
order Inc, LLC, Ltd, Corp, Co, GmbH, PLC that matches case-insensitively
at a word start anywhere in the name (with an optional trailing dot, and
with no requirement that the match be a trailing or whole token — e.g.
the "Co" of "Coastal" is detected); the matched token is reattached to
the new base name after a comma; only when no pattern matches anywhere
is the new name left bare. -/
theorem claim_c7_amended :
    (∀ base name, preserve_suffix name = none →
      mkNewName base (preserve_suffix name) = base) ∧
    (∀ base name s, preserve_suffix name = some s →
      mkNewName base (preserve_suffix name) = base ++ ", " ++ s) ∧
    (∀ name s, preserve_suffix name = some s →
      ∃ td ∈ suffixAlts,
        lowerList s.data = lowerList td.1.data ∨
        lowerList s.data = lowerList td.1.data ++ ['.']) ∧
    preserve_suffix "Coastal Winds" = some "Co" := by
  refine ⟨?_, ?_, ?_, by decide⟩
  · intro base name h; rw [h]; rfl
  · intro base name s h; rw [h]; rfl
  · intro name s h
    unfold preserve_suffix at h
    rcases Option.map_eq_some'.mp h with ⟨l, hfind, hs⟩
    rcases List.exists_of_findSome?_eq_some hfind with ⟨td, hmem, hsearch⟩
    refine ⟨td, hmem, ?_⟩
    have : s.data = l := by rw [← hs]
    rw [this]
    exact searchPatGo_lower hsearch

/-- C7 witness: a name with a genuine trailing suffix gets it
reattached after a comma. -/
theorem claim_c7_witness :
    mkNewName "Quantum Tech" (preserve_suffix "Acme Holdings LLC") =
      "Quantum Tech" ++ ", " ++ "LLC" :=
  claim_c7_amended.2.1 "Quantum Tech" "Acme Holdings LLC" "LLC" (by decide)

/-- C7 counterexample: "Coastal Winds" contains no trailing corporate
suffix, yet `preserve_suffix` matches the "Co" of "Coastal" and the new
name is not left bare. -/
theorem claim_c7_counterexample :
    specTrailingCorpSuffix "Coastal Winds" = false ∧
    preserve_suffix "Coastal Winds" = some "Co" ∧
    mkNewName "Quantum Tech" (preserve_suffix "Coastal Winds") = "Quantum Tech, Co" := by
  refine ⟨by decide, by decide, by decide⟩

theorem genAttempts_spec (oracle : Nat → NameChoice) :
    ∀ (fuel k : Nat) (used : List String),
      ((genAttempts oracle fuel k used).used =
          (genAttempts oracle fuel k used).full :: used ∧
        (genAttempts oracle fuel k used).full ∉ used) ∨
      ((genAttempts oracle fuel k used).full = "Person " ++ Nat.repr (used.length + 1) ∧
        (genAttempts oracle fuel k used).used = used) := by
  intro fuel
  induction fuel with
  | zero => intro k used; exact Or.inr ⟨rfl, rfl⟩
  | succ n ih =>
    intro k used
    rw [genAttempts]
    rcases h : oracle k with ⟨ri, fi, li⟩
    simp only
    by_cases hmem :
        (FIRST_NAMES (regionKeys.getD (ri % regionKeys.length) "us")).getD
            (fi % (FIRST_NAMES (regionKeys.getD (ri % regionKeys.length) "us")).length) "" ++ " " ++
          (LAST_NAMES (regionKeys.getD (ri % regionKeys.length) "us")).getD
            (li % (LAST_NAMES (regionKeys.getD (ri % regionKeys.length) "us")).length) "" ∈ used
    · rw [if_pos hmem]; exact ih (k + 1) used
    · rw [if_neg hmem]; exact Or.inl ⟨rfl, hmem⟩

theorem companyAttempts_spec (oracle : Nat → NameChoice) :
    ∀ (fuel k : Nat) (used : List String),
      ((companyAttempts oracle fuel k used).used =
          (companyAttempts oracle fuel k used).name :: used ∧
        (companyAttempts oracle fuel k used).name ∉ used) ∨
      ((companyAttempts oracle fuel k used).name = "Company " ++ Nat.repr (used.length + 1) ∧
        (companyAttempts oracle fuel k used).used = used) := by
  intro fuel
  induction fuel with
  | zero => intro k used; exact Or.inr ⟨rfl, rfl⟩
  | succ n ih =>
    intro k used
    rw [companyAttempts]
    rcases h : oracle k with ⟨si, ai, bi⟩
    simp only
    by_cases hmem :
        (if si % 2 = 0 then
          PREFIXES.getD (ai % PREFIXES.length) "" ++ " " ++ SUFFIXES.getD (bi % SUFFIXES.length) ""
        else STANDALONE_NAMES.getD (ai % STANDALONE_NAMES.length) "") ∈ used
    · rw [if_pos hmem]; exact ih (k + 1) used
    · rw [if_neg hmem]; exact Or.inl ⟨rfl, hmem⟩

/-- C2 (amended): a candidate accepted by the retry loop is absent from
the used-names set and is inserted into it, so any two calls that both
accept a candidate return distinct display forms; on exhaustion the
generator returns the numbered placeholder "Person <n>" / "Company <n>"
with n = current pool size + 1, but does not insert it into the set, so
a later exhausted call with no intervening insertion can return the same
placeholder (issued display forms are therefore not guaranteed pairwise
distinct). -/
theorem claim_c2_amended :
    (∀ (oracle : Nat → NameChoice) (used : List String),
      ((generate_random_name oracle used).used =
          (generate_random_name oracle used).full :: used ∧
        (generate_random_name oracle used).full ∉ used) ∨
      ((generate_random_name oracle used).full = "Person " ++ Nat.repr (used.length + 1) ∧
        (generate_random_name oracle used).used = used)) ∧
    (∀ (oracle : Nat → NameChoice) (used : List String),
      ((generate_company_name oracle used).used =
          (generate_company_name oracle used).name :: used ∧
        (generate_company_name oracle used).name ∉ used) ∨
      ((generate_company_name oracle used).name = "Company " ++ Nat.repr (used.length + 1) ∧
        (generate_company_name oracle used).used = used)) ∧
    (∀ (o₁ o₂ : Nat → NameChoice) (used : List String),
      (generate_random_name o₁ used).used = (generate_random_name o₁ used).full :: used →
      (generate_random_name o₂ (generate_random_name o₁ used).used).used =
        (generate_random_name o₂ (generate_random_name o₁ used).used).full ::
          (generate_random_name o₁ used).used →
      (generate_random_name o₁ used).full ≠
        (generate_random_name o₂ (generate_random_name o₁ used).used).full) ∧
    (∀ (o₁ o₂ : Nat → NameChoice) (used : List String),
      (generate_company_name o₁ used).used = (generate_company_name o₁ used).name :: used →
      (generate_company_name o₂ (generate_company_name o₁ used).used).used =
        (generate_company_name o₂ (generate_company_name o₁ used).used).name ::
          (generate_company_name o₁ used).used →
      (generate_company_name o₁ used).name ≠
        (generate_company_name o₂ (generate_company_name o₁ used).used).name) := by
  refine ⟨fun oracle used => genAttempts_spec oracle 1000 0 used,
          fun oracle used => companyAttempts_spec oracle 1000 0 used, ?_, ?_⟩
  · intro o₁ o₂ used ha hb
    rcases genAttempts_spec o₂ 1000 0 (generate_random_name o₁ used).used with hsucc | hfall
    · intro heq
      have hmem : (generate_random_name o₁ used).full ∈ (generate_random_name o₁ used).used := by
        rw [ha]; exact List.mem_cons_self _ _
      exact hsucc.2 (heq ▸ hmem)
    · exfalso
      have h := hfall.2.symm.trans hb
      have := congrArg List.length h
      simp at this
  · intro o₁ o₂ used ha hb
    rcases companyAttempts_spec o₂ 1000 0 (generate_company_name o₁ used).used with hsucc | hfall
    · intro heq
      have hmem : (generate_company_name o₁ used).name ∈ (generate_company_name o₁ used).used := by
        rw [ha]; exact List.mem_cons_self _ _
      exact hsucc.2 (heq ▸ hmem)
    · exfalso
      have h := hfall.2.symm.trans hb
      have := congrArg List.length h
      simp at this

/-- C2 witness: two distinct-choice calls both accept their candidate
and the issued names differ. -/
theorem claim_c2_witness :
    (generate_random_name (fun _ => (0, 0, 0)) []).full ≠
      (generate_random_name (fun _ => (1, 1, 1))
        (generate_random_name (fun _ => (0, 0, 0)) []).used).full :=
  claim_c2_amended.2.2.1 (fun _ => (0, 0, 0)) (fun _ => (1, 1, 1)) []
    (by decide) (by decide)

theorem genAttempts_exhaust_const :
    ∀ (fuel k : Nat),
      genAttempts (fun _ => (0, 0, 0)) fuel k ["Michael Smith"] =
        ⟨"Person 2", "", "Person 2", ["Michael Smith"]⟩ := by
  intro fuel
  induction fuel with
  | zero => intro k; rfl
  | succ n ih => intro k; exact ih (k + 1)

/-- C2 counterexample: starting from an empty pool, the constant choice
oracle issues "Michael Smith" once; the next two calls both exhaust the
1000 attempts and both return "Person 2" — two equal display forms
issued in one run. -/
theorem claim_c2_counterexample :
    (generate_random_name (fun _ => (0, 0, 0)) []).used = ["Michael Smith"] ∧
    (generate_random_name (fun _ => (0, 0, 0))
        (generate_random_name (fun _ => (0, 0, 0)) []).used).full = "Person 2" ∧
    (generate_random_name (fun _ => (0, 0, 0))
        (generate_random_name (fun _ => (0, 0, 0))
          (generate_random_name (fun _ => (0, 0, 0)) []).used).used).full = "Person 2" := by
  have h1 : (generate_random_name (fun _ => (0, 0, 0)) []).used = ["Michael Smith"] := by
    decide
  have h2 : generate_random_name (fun _ => (0, 0, 0)) ["Michael Smith"] =
      ⟨"Person 2", "", "Person 2", ["Michael Smith"]⟩ :=
    genAttempts_exhaust_const 1000 0
  refine ⟨h1, ?_, ?_⟩
  · rw [h1, h2]
  · rw [h1, h2]
    show (generate_random_name (fun _ => (0, 0, 0)) ["Michael Smith"]).full = "Person 2"
    rw [h2]

theorem lookupVal_setKey_same (k v : String) (r : Row) :
    lookupVal k (setKey k v r) = some v := by
  induction r with
  | nil => simp [setKey, lookupVal]
  | cons p r ih =>
    by_cases h : p.1 = k
    · simp [setKey, h, lookupVal]
    · simp [setKey, h, lookupVal, ih]

theorem lookupVal_setKey_ne (k k' v : String) (r : Row) (h : k' ≠ k) :
    lookupVal k (setKey k' v r) = lookupVal k r := by
  induction r with
  | nil => simp [setKey, lookupVal, h]
  | cons p r ih =>
    by_cases hp : p.1 = k'
    · simp only [setKey, hp, if_pos]
      rw [lookupVal, lookupVal, if_neg h, hp, if_neg h]
    · simp only [setKey, hp, if_neg, if_false]
      rw [lookupVal, lookupVal]
      by_cases hk : p.1 = k
      · simp [hk]
      · simp [hk, ih]

theorem drop_eq_getD_cons {α : Type} (d : α) :
    ∀ (l : List α) (i : Nat), i < l.length →
      l.drop i = l.getD i d :: l.drop (i + 1) := by
  intro l
  induction l with
  | nil => intro i h; simp at h
  | cons a t ih =>
    intro i h
    cases i with
    | zero => simp [List.getD]
    | succ j =>
      have hj : j < t.length := Nat.lt_of_succ_lt_succ h
      simpa [List.getD] using ih j hj

theorem collectColumn_eq_map (col : String) :
    ∀ rows : List Row,
      (∀ r ∈ rows, ∃ v, lookupVal col r = some v ∧ v ≠ "") →
      collectColumn col rows = rows.map (fun r => (lookupVal col r).getD "") := by
  intro rows
  induction rows with
  | nil => intro _; rfl
  | cons r rs ih =>
    intro h
    rcases h r (List.mem_cons_self _ _) with ⟨v, hv, hne⟩
    rw [collectColumn, hv]
    show (if v ≠ "" then v :: collectColumn col rs else collectColumn col rs) = _
    rw [if_pos hne, List.map_cons, hv,
      ih (fun x hx => h x (List.mem_cons_of_mem _ hx))]
    rfl

theorem assignColumn_map (col : String) (vals : List String) :
    ∀ (rows : List Row) (i : Nat),
      vals.length = i + rows.length →
      (∀ r ∈ rows, ∃ v, lookupVal col r = some v ∧ v ≠ "") →
      (assignColumn col vals i rows).map (fun r => (lookupVal col r).getD "") =
        vals.drop i := by
  intro rows
  induction rows with
  | nil =>
    intro i hlen _
    simp only [assignColumn, List.map_nil]
    rw [List.drop_eq_nil_of_le]
    simp [hlen]
  | cons r rs ih =>
    intro i hlen h
    rw [List.length_cons] at hlen
    rcases h r (List.mem_cons_self _ _) with ⟨v, hv, _⟩
    have hkey : hasKey col r = true := by simp [hasKey, hv]
    have hlt : i < vals.length := by omega
    have hne : vals ≠ [] := by
      intro hv0
      rw [hv0] at hlt
      simp at hlt
    rw [assignColumn, if_pos ⟨hkey, hne, hlt⟩]
    simp only [List.map_cons]
    rw [lookupVal_setKey_same]
    rw [ih (i + 1) (by omega) (fun x hx => h x (List.mem_cons_of_mem _ hx))]
    rw [drop_eq_getD_cons "" vals i hlt]
    rfl

/-- C3 (amended): when every record carries a nonempty value in the
column, the shuffled values are assigned one per record and the output
multiset of the column equals the input multiset; an entirely empty (or
absent) source column — the collected list is empty — leaves every
record unmodified.  (When the column mixes empty and nonempty values,
empty-valued records also consume shuffled values while trailing records
keep their originals, so the multiset can change; see the
counterexample.) -/
theorem claim_c3_amended :
    (∀ (col : String) (rows : List Row) (vals : List String),
      (∀ r ∈ rows, ∃ v, lookupVal col r = some v ∧ v ≠ "") →
      vals.Perm (collectColumn col rows) →
      (((assignColumn col vals 0 rows).map (fun r => (lookupVal col r).getD "") :
          Multiset String) =
        (rows.map (fun r => (lookupVal col r).getD "") : Multiset String))) ∧
    (∀ (col : String) (rows : List Row),
      assignColumn col [] 0 rows = rows) := by
  constructor
  · intro col rows vals hall hperm
    have hcol := collectColumn_eq_map col rows hall
    have hlen : vals.length = 0 + rows.length := by
      rw [hperm.length_eq, hcol]
      simp
    have hmap := assignColumn_map col vals rows 0 hlen hall
    rw [List.drop_zero] at hmap
    rw [hmap]
    exact Multiset.coe_eq_coe.mpr (hperm.trans (hcol ▸ List.Perm.refl _))
  · intro col rows
    induction rows with
    | nil => rfl
    | cons r rs ih =>
      rw [assignColumn, if_neg]
      · rw [ih]
      · rintro ⟨_, hne, _⟩
        exact hne rfl

/-- C3 witness: a two-record column [A, B] reassigned with the shuffle
[B, A] keeps the multiset {A, B}. -/
theorem claim_c3_witness :
    (((assignColumn "Location" ["B", "A"] 0
          [[("Location", "A")], [("Location", "B")]]).map
        (fun r => (lookupVal "Location" r).getD "") : Multiset String) =
      ([[("Location", "A")], [("Location", "B")]].map
        (fun r => (lookupVal "Location" r).getD "") : Multiset String)) :=
  claim_c3_amended.1 "Location" [[("Location", "A")], [("Location", "B")]] ["B", "A"]
    (by decide) (by decide)

/-- C3 counterexample: with column values [A, "", B] the collected list
is [A, B]; taking the identity permutation as the shuffle outcome, the
empty-valued second record receives "B" and the third record keeps its
original "B", so the output multiset {A, B, B} differs from the input
multiset {A, "", B}. -/
theorem claim_c3_counterexample :
    (["A", "B"].Perm
      (collectColumn "Location"
        [[("Location", "A")], [("Location", "")], [("Location", "B")]])) ∧
    assignColumn "Location" ["A", "B"] 0
        [[("Location", "A")], [("Location", "")], [("Location", "B")]] =
      [[("Location", "A")], [("Location", "B")], [("Location", "B")]] ∧
    ¬ (((assignColumn "Location" ["A", "B"] 0
            [[("Location", "A")], [("Location", "")], [("Location", "B")]]).map
          (fun r => (lookupVal "Location" r).getD "")).Perm
        ([[("Location", "A")], [("Location", "")], [("Location", "B")]].map
          (fun r => (lookupVal "Location" r).getD ""))) := by
  refine ⟨by decide, by decide, by decide⟩

theorem mem_hyphenateSpaces {c : Char} :
    ∀ (flag : Bool) (l : List Char), c ∈ hyphenateSpaces flag l →
      c = '-' ∨ (c ∈ l ∧ isPySpace c = false) := by
  intro flag l
  induction l generalizing flag with
  | nil => intro h; simp [hyphenateSpaces] at h
  | cons a t ih =>
    intro h
    by_cases ha : isPySpace a = true
    · rw [hyphenateSpaces, if_pos ha] at h
      cases flag with
      | true =>
        simp only [if_pos] at h
        rcases ih true h with h' | ⟨hm, hs⟩
        · exact Or.inl h'
        · exact Or.inr ⟨List.mem_cons_of_mem _ hm, hs⟩
      | false =>
        simp only [Bool.false_eq_true, if_false] at h
        rcases List.mem_cons.mp h with rfl | h'
        · exact Or.inl rfl
        · rcases ih true h' with h'' | ⟨hm, hs⟩
          · exact Or.inl h''
          · exact Or.inr ⟨List.mem_cons_of_mem _ hm, hs⟩
    · rw [hyphenateSpaces, if_neg ha] at h
      rcases List.mem_cons.mp h with rfl | h'
      · exact Or.inr ⟨List.mem_cons_self _ _, by simpa using ha⟩
      · rcases ih false h' with h'' | ⟨hm, hs⟩
        · exact Or.inl h''
        · exact Or.inr ⟨List.mem_cons_of_mem _ hm, hs⟩

theorem mem_collapseHyphens {c : Char} :
    ∀ (flag : Bool) (l : List Char), c ∈ collapseHyphens flag l →
      c = '-' ∨ c ∈ l := by
  intro flag l
  induction l generalizing flag with
  | nil => intro h; simp [collapseHyphens] at h
  | cons a t ih =>
    intro h
    by_cases ha : a = '-'
    · rw [collapseHyphens, if_pos ha] at h
      cases flag with
      | true =>
        simp only [if_pos] at h
        rcases ih true h with h' | h'
        · exact Or.inl h'
        · exact Or.inr (List.mem_cons_of_mem _ h')
      | false =>
        simp only [Bool.false_eq_true, if_false] at h
        rcases List.mem_cons.mp h with rfl | h'
        · exact Or.inl rfl
        · rcases ih true h' with h'' | h''
          · exact Or.inl h''
          · exact Or.inr (List.mem_cons_of_mem _ h'')
    · rw [collapseHyphens, if_neg ha] at h
      rcases List.mem_cons.mp h with rfl | h'
      · exact Or.inr (List.mem_cons_self _ _)
      · rcases ih false h' with h'' | h''
        · exact Or.inl h''
        · exact Or.inr (List.mem_cons_of_mem _ h'')

theorem mem_stripEndWhile {p : Char → Bool} {c : Char} :
    ∀ l : List Char, c ∈ stripEndWhile p l → c ∈ l := by
  intro l
  induction l with
  | nil => intro h; simp [stripEndWhile] at h
  | cons a t ih =>
    intro h
    rw [stripEndWhile] at h
    cases hm : stripEndWhile p t with
    | nil =>
      rw [hm] at h
      by_cases hp : p a = true
      · rw [if_pos hp] at h; simp at h
      · rw [if_neg hp] at h
        rcases List.mem_cons.mp h with rfl | h'
        · exact List.mem_cons_self _ _
        · simp at h'
    | cons x xs =>
      rw [hm] at h
      rcases List.mem_cons.mp h with rfl | h'
      · exact List.mem_cons_self _ _
      · exact List.mem_cons_of_mem _ (ih (hm ▸ h'))

theorem mem_dropWhileChar {p : Char → Bool} {c : Char} :
    ∀ l : List Char, c ∈ l.dropWhile p → c ∈ l := by
  intro l
  induction l with
  | nil => intro h; simp at h
  | cons a t ih =>
    intro h
    rw [List.dropWhile_cons] at h
    by_cases hp : p a = true
    · rw [if_pos hp] at h; exact List.mem_cons_of_mem _ (ih h)
    · rw [if_neg hp] at h; exact h

theorem noDoubleHyphen_tail {a : Char} {l : List Char}
    (h : noDoubleHyphen (a :: l) = true) : noDoubleHyphen l = true := by
  cases l with
  | nil => rfl
  | cons b t =>
    rw [noDoubleHyphen, Bool.and_eq_true] at h
    exact h.2

theorem head_collapse_true :
    ∀ (l : List Char) (c : Char),
      (collapseHyphens true l).head? = some c → c ≠ '-' := by
  intro l
  induction l with
  | nil => intro c h; simp [collapseHyphens] at h
  | cons a t ih =>
    intro c h
    by_cases ha : a = '-'
    · rw [collapseHyphens, if_pos ha] at h
      simp only [if_pos] at h
      exact ih c h
    · rw [collapseHyphens, if_neg ha] at h
      simp only [List.head?_cons, Option.some.injEq] at h
      rw [← h]
      exact ha

theorem noDoubleHyphen_collapse :
    ∀ (flag : Bool) (l : List Char),
      noDoubleHyphen (collapseHyphens flag l) = true := by
  intro flag l
  induction l generalizing flag with
  | nil => cases flag <;> rfl
  | cons a t ih =>
    by_cases ha : a = '-'
    · rw [collapseHyphens, if_pos ha]
      cases flag with
      | true => simpa using ih true
      | false =>
        simp only [Bool.false_eq_true, if_false]
        cases hm : collapseHyphens true t with
        | nil => rfl
        | cons b bs =>
          rw [noDoubleHyphen, Bool.and_eq_true]
          constructor
          · have hb : b ≠ '-' := head_collapse_true t b (by rw [hm]; rfl)
            simp [hb]
          · rw [← hm]; exact ih true
    · rw [collapseHyphens, if_neg ha]
      cases hm : collapseHyphens false t with
      | nil => rfl
      | cons b bs =>
        rw [noDoubleHyphen, Bool.and_eq_true]
        constructor
        · simp [ha]
        · rw [← hm]; exact ih false

theorem stripEndWhile_append (p : Char → Bool) :
    ∀ l : List Char, ∃ t, l = stripEndWhile p l ++ t := by
  intro l
  induction l with
  | nil => exact ⟨[], rfl⟩
  | cons a t ih =>
    rw [stripEndWhile]
    cases hm : stripEndWhile p t with
    | nil =>
      by_cases hp : p a = true
      · rw [if_pos hp]; exact ⟨a :: t, rfl⟩
      · rw [if_neg hp]
        rcases ih with ⟨u, hu⟩
        rw [hm] at hu
        exact ⟨t, by rw [List.cons_append, List.nil_append]⟩
    | cons x xs =>
      rcases ih with ⟨u, hu⟩
      rw [hm] at hu
      exact ⟨u, by rw [List.cons_append, ← hu]⟩

theorem noDoubleHyphen_append_left :
    ∀ xs ys : List Char, noDoubleHyphen (xs ++ ys) = true →
      noDoubleHyphen xs = true := by
  intro xs
  induction xs with
  | nil => intro ys _; rfl
  | cons a xs ih =>
    intro ys h
    cases xs with
    | nil => rfl
    | cons b t =>
      rw [List.cons_append, List.cons_append, noDoubleHyphen, Bool.and_eq_true] at h
      rw [noDoubleHyphen, Bool.and_eq_true]
      exact ⟨h.1, ih ys (by rw [List.cons_append]; exact h.2)⟩

theorem noDoubleHyphen_stripEnd (p : Char → Bool) (l : List Char)
    (h : noDoubleHyphen l = true) :
    noDoubleHyphen (stripEndWhile p l) = true := by
  rcases stripEndWhile_append p l with ⟨t, ht⟩
  rw [ht] at h
  exact noDoubleHyphen_append_left _ _ h

theorem noDoubleHyphen_dropWhile (p : Char → Bool) :
    ∀ l : List Char, noDoubleHyphen l = true →
      noDoubleHyphen (l.dropWhile p) = true := by
  intro l
  induction l with
  | nil => intro _; rfl
  | cons a t ih =>
    intro h
    rw [List.dropWhile_cons]
    by_cases hp : p a = true
    · rw [if_pos hp]; exact ih (noDoubleHyphen_tail h)
    · rw [if_neg hp]; exact h

theorem head_dropWhileChar (p : Char → Bool) :
    ∀ (l : List Char) (c : Char), (l.dropWhile p).head? = some c →
      p c = false := by
  intro l
  induction l with
  | nil => intro c h; simp at h
  | cons a t ih =>
    intro c h
    rw [List.dropWhile_cons] at h
    by_cases hp : p a = true
    · rw [if_pos hp] at h; exact ih c h
    · rw [if_neg hp] at h
      simp only [List.head?_cons, Option.some.injEq] at h
      rw [← h]
      simpa using hp

theorem head_stripEndWhile (p : Char → Bool) :
    ∀ (l : List Char) (c : Char), (stripEndWhile p l).head? = some c →
      l.head? = some c := by
  intro l
  induction l with
  | nil => intro c h; simp [stripEndWhile] at h
  | cons a t _ =>
    intro c h
    rw [stripEndWhile] at h
    cases hm : stripEndWhile p t with
    | nil =>
      rw [hm] at h
      by_cases hp : p a = true
      · rw [if_pos hp] at h; simp at h
      · rw [if_neg hp] at h
        simpa using h
    | cons x xs =>
      rw [hm] at h
      simpa using h

theorem getLast_stripEndWhile (p : Char → Bool) :
    ∀ (l : List Char) (c : Char), (stripEndWhile p l).getLast? = some c →
      p c = false := by
  intro l
  induction l with
  | nil => intro c h; simp [stripEndWhile] at h
  | cons a t ih =>
    intro c h
    rw [stripEndWhile] at h
    cases hm : stripEndWhile p t with
    | nil =>
      rw [hm] at h
      by_cases hp : p a = true
      · rw [if_pos hp] at h; simp at h
      · rw [if_neg hp] at h
        simp only [List.getLast?_singleton, Option.some.injEq] at h
        rw [← h]
        simpa using hp
    | cons x xs =>
      rw [hm] at h
      rw [List.getLast?_cons_cons] at h
      exact ih c (hm ▸ h)

/-- C10: for every input name, `normalize_to_slug` (corporate-suffix
removal, lower-casing, character filtering, whitespace hyphenation,
hyphen collapsing, hyphen stripping, in that order) produces a string of
lowercase ASCII letters, digits and hyphens only, with no two
consecutive hyphens and no leading or trailing hyphen. -/
theorem claim_c10 : ∀ name : String,
    slugOk (normalize_to_slug name).data = true ∧
    (normalize_to_slug name).data =
      stripHyphens (collapseHyphens false (hyphenateSpaces false
        (filterAllowed (lowerList (removeCorpSuffix name.data))))) := by
  intro name
  refine ⟨?_, rfl⟩
  have hdata : (normalize_to_slug name).data =
      stripEndWhile (fun c => c = '-')
        ((collapseHyphens false (hyphenateSpaces false
          (filterAllowed (lowerList (removeCorpSuffix name.data))))).dropWhile
            (fun c => c = '-')) := rfl
  unfold slugOk
  rw [hdata]
  refine Bool.and_eq_true _ _ |>.mpr ⟨Bool.and_eq_true _ _ |>.mpr
    ⟨Bool.and_eq_true _ _ |>.mpr ⟨?_, ?_⟩, ?_⟩, ?_⟩
  · -- character set
    rw [List.all_eq_true]
    intro c hc
    have h1 := mem_dropWhileChar _ (mem_stripEndWhile _ hc)
    rcases mem_collapseHyphens _ _ h1 with rfl | h2
    · rfl
    rcases mem_hyphenateSpaces _ _ h2 with rfl | ⟨h3, hsp⟩
    · rfl
    have h4 := List.mem_filter.mp h3
    have h5 := h4.2
    simp only [Bool.or_eq_true] at h5
    unfold isSlugChar
    rcases h5 with ((hl | hd) | hs) | hh
    · simp [hl]
    · simp [hd]
    · rw [hs] at hsp; cases hsp
    · simp [hh]
  · -- no double hyphen
    exact noDoubleHyphen_stripEnd _ _
      (noDoubleHyphen_dropWhile _ _ (noDoubleHyphen_collapse false _))
  · -- no leading hyphen
    cases hh : (stripEndWhile (fun c => c = '-')
        ((collapseHyphens false (hyphenateSpaces false
          (filterAllowed (lowerList (removeCorpSuffix name.data))))).dropWhile
            (fun c => c = '-'))).head? with
    | none => rfl
    | some c =>
      have := head_dropWhileChar _ _ c (head_stripEndWhile _ _ c hh)
      simp only [decide_eq_false_iff_not] at this
      simp [hh, this]
  · -- no trailing hyphen
    cases hh : (stripEndWhile (fun c => c = '-')
        ((collapseHyphens false (hyphenateSpaces false
          (filterAllowed (lowerList (removeCorpSuffix name.data))))).dropWhile
            (fun c => c = '-'))).getLast? with
    | none => rfl
    | some c =>
      have := getLast_stripEndWhile _ _ c hh
      simp only [decide_eq_false_iff_not] at this
      simp [hh, this]

/-- C1 (amended): the substitution passes of the bio redactor run in
the fixed order name-replacement, known-entity, CamelCase, acronym,
multi-word, URL, www, e-mail, phone, each operating on the output of the
previous pass; however, later passes may re-match text introduced by
earlier ones: the multi-word pass rewrites a two-part substitute name
inserted by the name-replacement pass to "[Technology Company]", and
re-matches a "[Technology Company]" placeholder inserted by the
known-entity pass, turning it into "[[Technology Company]]"; the
CamelCase and acronym passes do leave that placeholder unchanged. -/
theorem claim_c1_amended :
    (∀ original_name new_first new_last new_full bio : String,
      anonymize_bio original_name new_first new_last new_full bio =
        ⟨phonePass2 (phonePass1 (emailPass (wwwPass (urlPass
          (multiwordPass (acronymPass (camelCasePass (knownEntityPass
            (nameReplacementPass original_name new_first new_last new_full
              bio.data)))))))))⟩) ∧
    camelCasePass "[Technology Company]".data = "[Technology Company]".data ∧
    acronymPass "[Technology Company]".data = "[Technology Company]".data ∧
    multiwordPass "[Technology Company]".data = "[[Technology Company]]".data ∧
    anonymize_bio "John Doe" "Wei" "Wang" "Wei Wang" "Google" =
      "[[Technology Company]]" ∧
    anonymize_bio "John Doe" "Wei" "Wang" "Wei Wang" "John Doe is great." =
      "[Technology Company] is great." := by
  exact ⟨fun _ _ _ _ _ => rfl, by decide, by decide, by decide, by decide, by decide⟩

/-- C1 counterexample: in the redaction call with original name
"John Doe" and substitute identity "Wei Wang" on the bio
"John Doe is great.", the name-replacement pass inserts "Wei Wang" but
the returned text does not contain it (the multi-word pass rewrote it),
and the multi-word pass rewrites the exact placeholder text inserted by
the known-entity pass. -/
theorem claim_c1_counterexample :
    anonymize_bio "John Doe" "Wei" "Wang" "Wei Wang" "John Doe is great." =
      "[Technology Company] is great." ∧
    containsSeq "Wei Wang".data "[Technology Company] is great.".data = false ∧
    nameReplacementPass "John Doe" "Wei" "Wang" "Wei Wang"
      "John Doe is great.".data = "Wei Wang is great.".data ∧
    multiwordPass "[Technology Company]".data ≠ "[Technology Company]".data := by
  exact ⟨by decide, by decide, by decide, by decide⟩

/-- C6 (amended): the allow-listed acronyms are preserved by the
acronym pass ("API" and "CEO" map to themselves, "AI" is too short for
the `[A-Z]{3,}` pattern), by the CamelCase pass, and by the portfolio
word classifier (`should_anonymize_word` rejects all three); but the
multi-word phrase pass can swallow an allow-listed acronym as the
trailing word of a capitalized phrase (e.g. "Texas CEO" becomes
"[Technology Company]"). -/
theorem claim_c6_amended :
    replace_acronym "API".data = "API".data ∧
    replace_acronym "CEO".data = "CEO".data ∧
    acronymPass "AI".data = "AI".data ∧
    acronymPass "Texas CEO has API and AI".data =
      "Texas CEO has API and AI".data ∧
    camelCasePass "API".data = "API".data ∧
    camelCasePass "CEO".data = "CEO".data ∧
    camelCasePass "AI".data = "AI".data ∧
    should_anonymize_word "API" = false ∧
    should_anonymize_word "CEO" = false ∧
    should_anonymize_word "AI" = false ∧
    multiwordPass "Texas CEO".data = "[Technology Company]".data := by
  exact ⟨by decide, by decide, by decide, by decide, by decide, by decide,
    by decide, by decide, by decide, by decide, by decide⟩

/-- C6 counterexample: the input "Texas CEO" contains the allow-listed
acronym "CEO", yet the redaction call returns "[Technology Company]",
in which "CEO" does not occur — the multi-word pass replaced the phrase
"Texas CEO" wholesale. -/
theorem claim_c6_counterexample :
    anonymize_bio "John Doe" "Wei" "Wang" "Wei Wang" "Texas CEO" =
      "[Technology Company]" ∧
    containsSeq "CEO".data "Texas CEO".data = true ∧
    containsSeq "CEO".data "[Technology Company]".data = false := by
  exact ⟨by decide, by decide, by decide⟩

theorem mentorsRow_lookup (oracle : Nat → NameChoice) (used : List String)
    (row : Row) (k : String) (h1 : k ≠ "Full Name") (h2 : k ≠ "Bio") :
    lookupVal k (mentorsRow oracle used row).1 = lookupVal k row := by
  unfold mentorsRow
  by_cases hb : hasKey "Bio" row = true
  · simp only [hb, if_pos]
    rw [lookupVal_setKey_ne _ _ _ _ (fun h => h2 h.symm),
      lookupVal_setKey_ne _ _ _ _ (fun h => h1 h.symm)]
  · simp only [hb, Bool.false_eq_true, if_false]
    rw [lookupVal_setKey_ne _ _ _ _ (fun h => h1 h.symm)]

theorem mentorsRows_length (oracle : Nat → Nat → NameChoice) :
    ∀ (rows : List Row) (kk : Nat) (used : List String),
      (mentorsRows oracle kk used rows).length = rows.length := by
  intro rows
  induction rows with
  | nil => intro kk used; rfl
  | cons r rs ih =>
    intro kk used
    rw [mentorsRows, List.length_cons, List.length_cons, ih]

theorem mentorsRows_lookup (oracle : Nat → Nat → NameChoice) (k : String)
    (h1 : k ≠ "Full Name") (h2 : k ≠ "Bio") :
    ∀ (rows : List Row) (kk : Nat) (used : List String) (i : Nat),
      lookupVal k ((mentorsRows oracle kk used rows).getD i []) =
        lookupVal k (rows.getD i []) := by
  intro rows
  induction rows with
  | nil => intro kk used i; rfl
  | cons r rs ih =>
    intro kk used i
    cases i with
    | zero =>
      rw [mentorsRows]
      exact mentorsRow_lookup (oracle kk) used r k h1 h2
    | succ j =>
      rw [mentorsRows]
      simpa [List.getD] using ih (kk + 1) (mentorsRow (oracle kk) used r).2 j

/-- C9: the mentors batch transform rewrites only the "Full Name" and
"Bio" fields: the header is passed through unchanged, the number and
order of rows are preserved, and every field other than "Full Name" and
"Bio" of every output row equals the corresponding input field. -/
theorem claim_c9 (oracle : Nat → Nat → NameChoice) (fieldnames : List String)
    (rows : List Row) (i : Nat) (k : String)
    (h1 : k ≠ "Full Name") (h2 : k ≠ "Bio") :
    (mentors_anonymize_csv oracle fieldnames rows).1 = fieldnames ∧
    (mentors_anonymize_csv oracle fieldnames rows).2.length = rows.length ∧
    lookupVal k ((mentors_anonymize_csv oracle fieldnames rows).2.getD i []) =
      lookupVal k (rows.getD i []) :=
  ⟨rfl, mentorsRows_length oracle rows 0 [],
    mentorsRows_lookup oracle k h1 h2 rows 0 [] i⟩

/-- C9 witness: on a concrete two-field row, the "Role" field of the
output equals the input's. -/
theorem claim_c9_witness :
    lookupVal "Role"
        ((mentors_anonymize_csv (fun _ _ => (0, 0, 0)) ["Full Name", "Role"]
            [[("Full Name", "Dr. Jane Carter"), ("Role", "Boss")]]).2.getD 0 []) =
      lookupVal "Role" ([[("Full Name", "Dr. Jane Carter"), ("Role", "Boss")]].getD 0 []) :=
  (claim_c9 (fun _ _ => (0, 0, 0)) ["Full Name", "Role"]
    [[("Full Name", "Dr. Jane Carter"), ("Role", "Boss")]] 0 "Role"
    (by decide) (by decide)).2.2

end Anon
